import Mathlib

/-!
Shallow embedding of the BOL-CD core (graph learning, alert decision engine,
late-replay reconciler, hash-chained audit store) with verification of its
specified properties.

Python floats are modelled by exact rationals; the opaque math-library
functions `sqrt` and `erfc` are abstracted as function parameters.  Python
unbounded-int bitsets are modelled by `Nat` with its bitwise operations.
-/

namespace BolCD

/-! ## Binarizer — `src/bolcd/core/binarization.py` -/

/-- An event maps a metric name to a numeric value; `none` models a missing
field (the Python `dict.get` returning `None`). -/
def Event : Type := String → Option ℚ

/-- Inner-loop body of `binarize_events` for one metric of one event: given the
bit mask `1 << k` of the current event, the metric state `(values, unknown)`,
the looked-up value `x` and the threshold `a`, set the value bit, leave the
explicit-zero case alone, or set the unknown bit. -/
def binarizeCell (delta : ℚ) (bit : ℕ) (vu : ℕ × ℕ) (x : Option ℚ) (a : ℚ) : ℕ × ℕ :=
  match x with
  | none => (vu.1, vu.2 ||| bit)
  | some v =>
    if a + delta ≤ v then (vu.1 ||| bit, vu.2)
    else if v ≤ a - delta then vu
    else (vu.1, vu.2 ||| bit)

/-- Inner loop of `binarize_events` over all metrics of event number `k`. -/
def binarizeStep (thresholds : List (String × ℚ)) (delta : ℚ) (k : ℕ) (ev : Event)
    (st : List (ℕ × ℕ)) : List (ℕ × ℕ) :=
  List.zipWith (fun vu am => binarizeCell delta (1 <<< k) vu (ev am.1) am.2) st thresholds

/-- Outer loop of `binarize_events` over the events, carrying the event index
`k` (bit position) and the per-metric `(values, unknown)` states. -/
def binarizeGo (thresholds : List (String × ℚ)) (delta : ℚ) :
    List (ℕ × ℕ) → ℕ → List Event → List (ℕ × ℕ)
  | st, _, [] => st
  | st, k, ev :: rest => binarizeGo thresholds delta (binarizeStep thresholds delta k ev st) (k + 1) rest

/-- Embedding of `binarize_events`: returns the per-metric value bitsets and
unknown masks, metric order given by the threshold list. -/
def binarize_events (events : List Event) (thresholds : List (String × ℚ)) (delta : ℚ) :
    List ℕ × List ℕ :=
  let pairs := binarizeGo thresholds delta (thresholds.map fun _ => (0, 0)) 0 events
  (pairs.map Prod.fst, pairs.map Prod.snd)

/-! ## Implication statistics — `src/bolcd/core/implication.py` -/

/-- Fuel-driven bit count; fuel `n` suffices for input `n` since the argument
halves each step.  Models Python `int.bit_count()`. -/
def popcountAux : ℕ → ℕ → ℕ
  | 0, _ => 0
  | fuel + 1, n => if n = 0 then 0 else n % 2 + popcountAux fuel (n / 2)

/-- Embedding of `popcount`. -/
def popcount (n : ℕ) : ℕ := popcountAux n n

/-- Embedding of `compute_counterexamples`: `popcnt(S_i & ~S_j & ~unknown_j)`.
Python `x & ~y` on unbounded non-negative ints is `Nat.ldiff`. -/
def compute_counterexamples (src_bits dst_bits dst_unknown : ℕ) : ℕ :=
  popcount (Nat.ldiff (Nat.ldiff src_bits dst_bits) dst_unknown)

/-- Embedding of `rule_of_three_upper`; `none` models the `float("inf")`
returned for non-positive support (an infinite value has no rational model,
and every comparison `inf <= eps` is false, like `none` here). -/
def rule_of_three_upper (n_src1 : ℕ) : Option ℚ :=
  if n_src1 = 0 then none else some (3 / n_src1)

/-- Loop of the small-`n` branch of `one_sided_binomial_pvalue`: upward
recurrence over `r`, accumulating the CDF, with the early exit at
`cdf >= 1 - 1e-15` and the final clamped tail.  `steps` is the remaining
iteration count (`range(0, k-1)` has `k-1` iterations). -/
def binomTailGo (n : ℤ) (p0 q : ℚ) : ℕ → ℕ → ℚ → ℚ → ℚ
  | 0, _, _, cdf => max 0 (min 1 (1 - cdf))
  | steps + 1, r, pr, cdf =>
    let pr2 := pr * (((n : ℚ) - r) / (r + 1)) * (p0 / q)
    let cdf2 := cdf + pr2
    if 1 - 1 / 10 ^ 15 ≤ cdf2 then 0
    else binomTailGo n p0 q steps (r + 1) pr2 cdf2

/-- Embedding of `one_sided_binomial_pvalue`.  `sq` and `er` model the float
library functions `math.sqrt` and `math.erfc` (`sq 2` models `2.0 ** 0.5`);
all other arithmetic is exact. -/
def one_sided_binomial_pvalue (sq er : ℚ → ℚ) (k n : ℤ) (p0 : ℚ) : ℚ :=
  if n ≤ 0 then 1
  else if p0 ≤ 0 then (if k ≤ 0 then 1 else 0)
  else if 1 ≤ p0 then (if k ≤ n then 1 else 0)
  else if 2000 ≤ n then
    let mean := (n : ℚ) * p0
    let var := (n : ℚ) * p0 * (1 - p0)
    if var ≤ 0 then (if (k : ℚ) ≤ mean then 1 else 0)
    else max 0 (min 1 (1 / 2 * er (((k : ℚ) - 1 / 2 - mean) / (sq var * sq 2))))
  else
    let q := 1 - p0
    let pr := q ^ n.toNat
    let cdf : ℚ := if 0 < k then pr else 0
    binomTailGo n p0 q (k - 1).toNat 0 pr cdf

/-- Edge statistic record of `implication.py`; `ci95_upper = none` models the
`float("nan")` sentinel stored when `k > 0` (and `inf` when support is 0),
`p_value = none` models Python `None`. -/
structure EdgeStats where
  src : String
  dst : String
  n_src1 : ℕ
  k_counterex : ℕ
  ci95_upper : Option ℚ
  p_value : Option ℚ
deriving DecidableEq

/-- Embedding of `compute_all_edges`: for each ordered pair `(i, j)` with
positive support, emit the Rule-of-Three statistic when `k = 0` and the
one-sided binomial p-value otherwise. -/
def compute_all_edges (sq er : ℚ → ℚ) (names : List String) (values unknowns : List ℕ)
    (epsilon : ℚ) : List EdgeStats :=
  (List.range names.length).flatMap (fun i =>
    let src_bits := values.getD i 0
    let src_n := popcount (Nat.ldiff src_bits (unknowns.getD i 0))
    if src_n = 0 then []
    else
      (List.range names.length).filterMap (fun j =>
        if i = j then none
        else
          let k := compute_counterexamples src_bits (values.getD j 0) (unknowns.getD j 0)
          if k = 0 then
            some ⟨names.getD i "", names.getD j "", src_n, 0, rule_of_three_upper src_n, none⟩
          else
            some ⟨names.getD i "", names.getD j "", src_n, k, none,
              some (one_sided_binomial_pvalue sq er k src_n epsilon)⟩))

/-! ## Benjamini–Hochberg FDR — `src/bolcd/core/fdr.py` -/

/-- Step 1 of `bh_qvalues`: pair every p-value with its original index and sort
ascending by p (Python `sorted` is a stable merge sort, as is
`List.mergeSort`). -/
def bhIndexed (ps : List ℚ) : List (ℕ × ℚ) :=
  ps.enum.mergeSort (fun a b => a.2 ≤ b.2)

/-- Step 2 of `bh_qvalues`: raw q-value `p * m / rank` by 1-indexed rank. -/
def bhRawQ (m : ℕ) (indexed : List (ℕ × ℚ)) : List ℚ :=
  indexed.mapIdx (fun r p => p.2 * m / (r + 1))

/-- Step 3 of `bh_qvalues`: reverse cumulative minimum with the running
minimum initialised to `1.0`, so position `i` becomes
`min q_i (min q_{i+1} (... (min q_{m-1} 1)))`. -/
def revCumMin : List ℚ → List ℚ
  | [] => []
  | x :: xs =>
    let ys := revCumMin xs
    min x (ys.headD 1) :: ys

/-- Step 4 of `bh_qvalues`: write each ranked q-value back to its original
position (clamped by `min 1.0 q`) into an output list pre-filled with `1.0`. -/
def bhAssign : List (ℕ × ℚ) → List ℚ → List ℚ
  | [], out => out
  | (i, q) :: rest, out => bhAssign rest (out.set i (min 1 q))

/-- Embedding of `bh_qvalues`. -/
def bh_qvalues (ps : List ℚ) : List ℚ :=
  let m := ps.length
  if m = 0 then []
  else
    let indexed := bhIndexed ps
    let qRanked := revCumMin (bhRawQ m indexed)
    bhAssign ((indexed.map Prod.fst).zip qRanked) (List.replicate m 1)

/-! ## Reachability and transitive reduction — `src/bolcd/core/transitive_reduction.py` -/

/-- Edge relation of an edge list. -/
def edgeRel (E : List (String × String)) (a b : String) : Prop := (a, b) ∈ E

/-- Reachability of the edge list: reflexive-transitive closure of its edge
relation, the relation computed by `_bfs_reachable`. -/
def Reach (E : List (String × String)) (a b : String) : Prop :=
  Relation.ReflTransGen (edgeRel E) a b

/-- One breadth-first expansion: add every edge target whose source is already
reached. -/
def stepSet (E : List (String × String)) (S : Finset String) : Finset String :=
  S ∪ (E.filterMap (fun e => if e.1 ∈ S then some e.2 else none)).toFinset

/-- Sets of nodes reached from `u` in at most `n` expansions. -/
def reachSet (E : List (String × String)) (u : String) : ℕ → Finset String
  | 0 => {u}
  | n + 1 => stepSet E (reachSet E u n)

/-- Executable embedding of `_bfs_reachable`: `E.length + 1` expansions suffice
to saturate (the queue-based Python search also runs to saturation). -/
def bfs_reachable (E : List (String × String)) (u v : String) : Bool :=
  v ∈ reachSet E u (E.length + 1)

/-- One iteration of the `transitive_reduction` loop: temporarily remove the
edge, drop it for good if its source still reaches its target, else restore. -/
def trStep (E : List (String × String)) (e : String × String) : List (String × String) :=
  if bfs_reachable (E.erase e) e.1 e.2 then E.erase e else E

/-- Embedding of `transitive_reduction`.  The Python adjacency sets
deduplicate the input edges; each edge is then examined exactly once (in the
dictionary's iteration order, here the deduplicated list order). -/
def transitive_reduction (edges : List (String × String)) : List (String × String) :=
  edges.dedup.foldl trStep edges.dedup

/-! ## Pipeline — `src/bolcd/core/pipeline.py` -/

/-- Accepted-edge record of the learned graph (`GraphEdge` dataclass). -/
structure GraphEdge where
  src : String
  dst : String
  n_src1 : ℕ
  k_counterex : ℕ
  ci95_upper : Option ℚ
  q_value : Option ℚ
deriving DecidableEq

/-- Result of `learn_graph_from_events` (the `nodes`/`edges` dict). -/
structure GraphResult where
  nodes : List String
  edges : List GraphEdge
deriving DecidableEq

/-- Acceptance predicate of the edge-selection loop in
`learn_graph_from_events`: Rule-of-Three bound against `epsilon` when the pair
has zero counterexamples, BH q-value against `fdr_q` otherwise (an absent
value never accepts, matching the float `nan <= eps` and `None` cases). -/
def acceptEdge (epsilon fdr_q : ℚ) (q_val : Option ℚ) (e : EdgeStats) : Bool :=
  if e.k_counterex = 0 then
    match e.ci95_upper with
    | some c => decide (c ≤ epsilon)
    | none => false
  else
    match q_val with
    | some q => decide (q ≤ fdr_q)
    | none => false

/-- Embedding of `learn_graph_from_events`: binarize, compute pair statistics,
BH-correct the p-values, select edges, transitively reduce.  The source reads
each p-value as `e.p_value or 1.0`, so a p-value of exactly 0.0 (falsy) is
replaced by 1.0. -/
def learn_graph_from_events (sq er : ℚ → ℚ) (events : List Event)
    (thresholds : List (String × ℚ)) (margin_delta fdr_q epsilon : ℚ) : GraphResult :=
  let names := thresholds.map Prod.fst
  let vu := binarize_events events thresholds margin_delta
  let raw := compute_all_edges sq er names vu.1 vu.2 epsilon
  let ps := raw.filterMap (fun e =>
    e.p_value.map (fun p => ((e.src, e.dst), if p = 0 then 1 else p)))
  let qs := bh_qvalues (ps.map Prod.snd)
  let q_map := (ps.map Prod.fst).zip qs
  let accepted := raw.filter (fun e => acceptEdge epsilon fdr_q (q_map.lookup (e.src, e.dst)) e)
  let accepted_pairs := accepted.map (fun e => (e.src, e.dst))
  let detail := accepted.map (fun e =>
    ((e.src, e.dst),
      GraphEdge.mk e.src e.dst e.n_src1 e.k_counterex e.ci95_upper
        (q_map.lookup (e.src, e.dst))))
  let reduced := transitive_reduction accepted_pairs
  let nodes := (reduced.flatMap (fun p => [p.1, p.2])).dedup
  ⟨nodes, reduced.filterMap (fun uv => detail.lookup uv)⟩

/-! ## Data model — `src/bolcd/models/condense.py` -/

/-- Alert row; timestamps are modelled as rational seconds. -/
structure Alert where
  id : String
  ts : ℚ
  entity_id : String
  rule_id : String
  severity : String
  signature : Option String
deriving DecidableEq

/-- Edge-metadata dictionary of the decision context; every field is optional
because the Python code reads the keys with `dict.get` defaults. -/
structure EdgeMeta where
  q_value : Option ℚ
  support : Option ℚ
  lift : Option ℚ
  window_sec : Option ℚ
  edge_id : Option String
deriving DecidableEq

/-- Reason object persisted with a decision (the JSON dict built in
`engine.py`; the suppress reason splices the edge dict in, modelled by the
`edge` field). -/
structure Reason where
  why : String
  policy_version : Option String
  validation_score : Option ℚ
  confidence : Option ℚ
  edge : Option EdgeMeta
deriving DecidableEq

/-- Decision audit row (`DecisionRecord`). -/
structure DecisionRec where
  alert_id : String
  decision : String
  confidence : ℚ
  reason : Reason
deriving DecidableEq

/-- Drift-related metadata dict stored on a suppression (`Suppressed.meta`);
`none` on the suppression models both SQL `NULL` and the empty dict (falsy in
`edge_drifted`). -/
structure DriftMeta where
  q : Option ℚ
  original_q : Option ℚ
  current_q : Option ℚ
  original_support : Option ℚ
  current_support : Option ℚ
deriving DecidableEq

/-- Suppression quarantine row (`Suppressed`); the opaque JSON column
`validation_details` is not consulted by any modelled code path and is
omitted. -/
structure SuppressedRec where
  alert_id : String
  edge_id : Option String
  inserted_ts : ℚ
  status : String
  false_suppression_score : Option ℚ
  validation_method : Option String
  meta : Option DriftMeta
deriving DecidableEq

/-- Late-replay row (`LateReplay`). -/
structure LateReplayRec where
  alert_id : String
  original_ts : ℚ
  late_ts : ℚ
  reason : String
  confidence : ℚ
  delivered : Bool
deriving DecidableEq

/-- Validation-log row (`ValidationLog`). -/
structure VLog where
  alert_id : String
  validation_ts : ℚ
  method : String
  score : ℚ
  confidence : ℚ
deriving DecidableEq

/-- The relational store the engine and reconciler read and write (the
SQLAlchemy session's tables); `db.add` is modelled as an append. -/
structure Db where
  alerts : List Alert
  decisions : List DecisionRec
  suppressed : List SuppressedRec
  late_replays : List LateReplayRec
  validation_logs : List VLog
deriving DecidableEq

/-! ## Decision policy — `src/bolcd/condense/policy.py` -/

/-- Environment-derived policy constants, as an explicit record. -/
structure Policy where
  alpha : ℚ
  s_min : ℚ
  lift_min : ℚ
  near_sec : ℚ
  root_pass : Bool
  allowlist : List String
  policy_version : String
  false_suppression_threshold : ℚ
  high_severity_protection : Bool
deriving DecidableEq

/-- The default policy: every `os.getenv` default of `policy.py`,
`engine.py` and `reconciler.py`. -/
def defaultPolicy : Policy :=
  ⟨1 / 100, 20, 3 / 2, 3600, true, [], "safe-1.0.0", 3 / 10, true⟩

/-- Embedding of `within_near_window`. -/
def within_near_window (pol : Policy) (alert_ts reference_ts : ℚ) : Bool :=
  decide (0 ≤ alert_ts - reference_ts ∧ alert_ts - reference_ts ≤ pol.near_sec)

/-- Embedding of `strong_edge` with the `dict.get` defaults. -/
def strong_edge (pol : Policy) (em : EdgeMeta) : Bool :=
  decide (em.q_value.getD 1 ≤ pol.alpha ∧ pol.s_min ≤ em.support.getD 0 ∧
    pol.lift_min ≤ em.lift.getD 1)

/-- Whether a list starts with the given character sequence. -/
def startsWithSeq : List Char → List Char → Bool
  | _, [] => true
  | [], _ :: _ => false
  | a :: as, b :: bs => a = b && startsWithSeq as bs

/-- Whether a character sequence occurs contiguously in another; models the
Python substring test `needle in hay`. -/
def containsSeq : List Char → List Char → Bool
  | [], needle => needle.isEmpty
  | a :: t, needle => startsWithSeq (a :: t) needle || containsSeq t needle

/-- Python `needle in hay` on strings. -/
def strContainsSub (hay needle : String) : Bool := containsSeq hay.toList needle.toList

/-- The fixed critical-signature set of `should_always_pass`. -/
def critical_signatures : List String :=
  ["privilege_escalation", "data_exfiltration", "malware_detected",
   "unauthorized_access", "sql_injection", "command_injection",
   "ransomware", "backdoor", "rootkit"]

/-- Embedding of `should_always_pass`: high/critical-severity protection,
allowlist, then case-insensitive critical-signature substring match (skipped
for a missing or empty signature, which is falsy). -/
def should_always_pass (pol : Policy) (alert : Alert) : Bool × Option String :=
  if pol.high_severity_protection ∧ alert.severity ∈ ["high", "critical"] then
    (true, some "high_severity_protection")
  else if alert.rule_id ∈ pol.allowlist then
    (true, some "allowlist")
  else
    match alert.signature with
    | some sig =>
      if sig ≠ "" ∧ critical_signatures.any (fun c => strContainsSub sig.toLower c) then
        (true, some "critical_signature")
      else (false, none)
    | none => (false, none)

/-- Severity weight table of `calculate_suppression_confidence`
(`dict.get` default 0.5). -/
def severity_weights (sev : String) : ℚ :=
  if sev = "critical" then 1 / 10
  else if sev = "high" then 3 / 10
  else if sev = "medium" then 7 / 10
  else if sev = "low" then 1
  else if sev = "info" then 1
  else 1 / 2

/-- Embedding of `calculate_suppression_confidence`; `em = none` models the
falsy empty edge dict. -/
def calculate_suppression_confidence (pol : Policy) (alert : Alert) (em : Option EdgeMeta)
    (validation_score : ℚ) : ℚ :=
  let base := 1 * severity_weights alert.severity
  let base := match em with
    | none => base
    | some e =>
      let qc := 1 - min (e.q_value.getD 1) 1
      let sc := min (e.support.getD 0 / (pol.s_min * 2)) 1
      let lc := min (e.lift.getD 1 / (pol.lift_min * 2)) 1
      base * ((qc + sc + lc) / 3)
  let base := if 0 < validation_score then base * (1 - validation_score) else base
  max 0 (min 1 base)

/-! ## Decision engine — `src/bolcd/condense/engine.py` -/

/-- Decision context handed to `decide_and_record`: DAG in-degrees, recent
antecedent alerts (association list in dict order) and edge metadata. -/
structure Ctx where
  in_deg : List (String × ℕ)
  recent_A : List ((String × String) × ℚ)
  edge_meta : List ((String × String) × EdgeMeta)

/-- Python truthiness of an edge-metadata dict: falsy iff empty. -/
def edgeMetaTruthy (em : EdgeMeta) : Bool :=
  !(em.q_value = none && em.support = none && em.lift = none &&
    em.window_sec = none && em.edge_id = none : Bool)

/-- What `decide_and_record` returns: the decision string and reason dict. -/
structure DecisionOut where
  decision : String
  reason : Reason
deriving DecidableEq

/-- Severity table of `FalseSuppressionValidator.validate_by_severity`. -/
def validate_by_severity (alert : Alert) : ℚ :=
  if alert.severity = "critical" then 9 / 10
  else if alert.severity = "high" then 7 / 10
  else if alert.severity = "medium" then 3 / 10
  else if alert.severity = "low" then 1 / 10
  else if alert.severity = "info" then 0
  else 1 / 2

/-- Embedding of `_validate_false_suppression`: weighted severity,
correlation and rarity signals, with a `ValidationLog` row appended. -/
def _validate_false_suppression (now : ℚ) (db : Db) (alert : Alert) : ℚ × Db :=
  let severity_score := validate_by_severity alert
  let recent_high := db.alerts.countP (fun a =>
    decide (a.entity_id = alert.entity_id ∧ a.severity ∈ ["high", "critical"] ∧
      now - 3600 ≤ a.ts ∧ a.id ≠ alert.id))
  let correlation_score := min ((recent_high : ℚ) * (1 / 5)) 1
  let same_pattern := db.alerts.countP (fun a =>
    decide (a.entity_id = alert.entity_id ∧ a.rule_id = alert.rule_id ∧
      now - 604800 ≤ a.ts))
  let rarity_score := 1 / ((same_pattern : ℚ) + 1)
  let final := severity_score * (2 / 5) + correlation_score * (3 / 10) + rarity_score * (3 / 10)
  (final, { db with validation_logs :=
    db.validation_logs ++ [⟨alert.id, now, "combined", final, 4 / 5⟩] })

/-- Embedding of `_deliver`: persist a deliver record unless one already
exists for the alert id, then return the freshly built decision. -/
def _deliver (db : Db) (alert : Alert) (reason : Reason) : DecisionOut × Db :=
  let db2 := match db.decisions.find? (fun r => r.alert_id = alert.id) with
    | some _ => db
    | none => { db with decisions :=
        db.decisions ++ [⟨alert.id, "deliver", reason.confidence.getD 1, reason⟩] }
  (⟨"deliver", reason⟩, db2)

/-- Embedding of `_suppress`: persist a suppress record plus a quarantine row
unless a decision already exists, then return the freshly built decision. -/
def _suppress (now : ℚ) (pol : Policy) (db : Db) (alert : Alert) (em : EdgeMeta)
    (validation_score confidence : ℚ) : DecisionOut × Db :=
  let reason : Reason :=
    ⟨"edge", some pol.policy_version, some validation_score, some confidence, some em⟩
  let db2 := match db.decisions.find? (fun r => r.alert_id = alert.id) with
    | some _ => db
    | none =>
      { db with
        decisions := db.decisions ++ [⟨alert.id, "suppress", confidence, reason⟩],
        suppressed := db.suppressed ++
          [⟨alert.id, em.edge_id, now, "pending", some validation_score, some "combined",
            some ⟨em.q_value, none, none, none, none⟩⟩] }
  (⟨"suppress", reason⟩, db2)

/-- The edge-match loop of `decide_and_record` over the recent-alert map, in
iteration order: first recent alert of the same entity whose learned edge to
this alert's rule is strong and within the near window. -/
def findSuppressEdge (pol : Policy) (alert : Alert) (edge_meta : List ((String × String) × EdgeMeta)) :
    List ((String × String) × ℚ) → Option EdgeMeta
  | [] => none
  | ((ent, rule_a), ts_a) :: rest =>
    if ent ≠ alert.entity_id then findSuppressEdge pol alert edge_meta rest
    else
      match edge_meta.lookup (rule_a, alert.rule_id) with
      | none => findSuppressEdge pol alert edge_meta rest
      | some em =>
        if !edgeMetaTruthy em then findSuppressEdge pol alert edge_meta rest
        else if within_near_window pol alert.ts ts_a && strong_edge pol em then some em
        else findSuppressEdge pol alert edge_meta rest

/-- Embedding of `decide_and_record`: safety guards, root pass, edge match,
false-suppression validation, then suppress or deliver. -/
def decide_and_record (pol : Policy) (now : ℚ) (db : Db) (alert : Alert) (ctx : Ctx) :
    DecisionOut × Db :=
  let sp := should_always_pass pol alert
  if sp.1 then
    _deliver db alert ⟨sp.2.getD "", some pol.policy_version, none, none, none⟩
  else if pol.root_pass && ((ctx.in_deg.lookup alert.rule_id).getD 0 = 0 : Bool) then
    _deliver db alert ⟨"root_pass", some pol.policy_version, none, none, none⟩
  else
    match findSuppressEdge pol alert ctx.edge_meta ctx.recent_A with
    | none => _deliver db alert ⟨"no_edge", some pol.policy_version, none, none, none⟩
    | some em =>
      let vr := _validate_false_suppression now db alert
      let confidence := calculate_suppression_confidence pol alert (some em) vr.1
      if pol.false_suppression_threshold < vr.1 then
        _deliver vr.2 alert
          ⟨"false_suppression_risk", some pol.policy_version, some vr.1, some confidence, some em⟩
      else
        _suppress now pol vr.2 alert em vr.1 confidence

/-! ## Late-replay reconciler — `src/bolcd/jobs/reconciler.py` -/

/-- Reconciler environment configuration (`BOLCD_LATE_TTL_SEC`,
`BOLCD_LATE_FALSE_THRESHOLD`); defaults 86400 and 0.6. -/
structure ReconCfg where
  ttl : ℚ
  late_false_threshold : ℚ
deriving DecidableEq

/-- Embedding of `edge_drifted` with its `dict.get` defaults; `none` models
the falsy missing or empty metadata dict. -/
def edge_drifted (meta : Option DriftMeta) : Bool :=
  match meta with
  | none => false
  | some m =>
    let original_q := m.original_q.getD (1 / 20)
    let current_q := m.current_q.getD original_q
    if original_q * 2 < current_q then true
    else
      let original_support := m.original_support.getD 20
      let current_support := m.current_support.getD original_support
      decide (current_support < original_support * (1 / 2))

/-- Embedding of `should_late_replay`: the five late-replay rules in order
(TTL, false-suppression score, edge drift, severity escalation, validation
update), first match winning. -/
def should_late_replay (cfg : ReconCfg) (now : ℚ) (alerts : List Alert) (vlogs : List VLog)
    (sup : SuppressedRec) : Bool × String × ℚ :=
  if cfg.ttl ≤ now - sup.inserted_ts then (true, "ttl_policy", 7 / 10)
  else
    let fsHit := match sup.false_suppression_score with
      | some s => decide (s ≠ 0 ∧ cfg.late_false_threshold ≤ s)
      | none => false
    if fsHit then (true, "false_suppression", sup.false_suppression_score.getD 0)
    else if edge_drifted sup.meta then (true, "edge_drift", 3 / 5)
    else
      let escalation := match alerts.find? (fun a => a.id = sup.alert_id) with
        | none => false
        | some alert =>
          decide (0 < alerts.countP (fun (a : Alert) =>
            decide (a.entity_id = alert.entity_id ∧ a.rule_id = alert.rule_id ∧
              a.severity ∈ ["high", "critical"] ∧ sup.inserted_ts < a.ts)))
      if escalation then (true, "severity_escalation", 4 / 5)
      else
        match vlogs.find? (fun (v : VLog) =>
          decide (v.alert_id = sup.alert_id ∧ sup.inserted_ts < v.validation_ts ∧
            7 / 10 < v.score)) with
        | some v => (true, "validation_update", v.score)
        | none => (false, "", 0)

/-- One iteration of the `run_once` sweep over a pending suppression: fire a
late replay, or expire past double TTL when no rule fired, or leave the row
alone.  The accumulator carries the rows processed so far and the growing
late-replay table (the existence query sees rows added earlier in the same
sweep). -/
def sweepOne (cfg : ReconCfg) (now : ℚ) (alerts : List Alert) (vlogs : List VLog)
    (acc : List SuppressedRec × List LateReplayRec) (sup : SuppressedRec) :
    List SuppressedRec × List LateReplayRec :=
  if sup.status ≠ "pending" then (acc.1 ++ [sup], acc.2)
  else
    let r := should_late_replay cfg now alerts vlogs sup
    if !r.1 then
      if cfg.ttl * 2 < now - sup.inserted_ts then
        (acc.1 ++ [{ sup with status := "expired" }], acc.2)
      else (acc.1 ++ [sup], acc.2)
    else
      match alerts.find? (fun a => a.id = sup.alert_id) with
      | none => (acc.1 ++ [sup], acc.2)
      | some alert =>
        match acc.2.find? (fun lr => lr.alert_id = alert.id) with
        | some _ => (acc.1 ++ [sup], acc.2)
        | none =>
          (acc.1 ++ [{ sup with status := "late" }],
           acc.2 ++ [⟨alert.id, alert.ts, now, r.2.1, r.2.2, false⟩])

/-- Embedding of `run_once`: sweep every suppression, then delete expired
rows older than seven days. -/
def run_once (cfg : ReconCfg) (now : ℚ) (db : Db) : Db :=
  let swept := db.suppressed.foldl (sweepOne cfg now db.alerts db.validation_logs)
    ([], db.late_replays)
  let kept := swept.1.filter (fun s =>
    !(s.status = "expired" && decide (s.inserted_ts < now - 604800)))
  { db with suppressed := kept, late_replays := swept.2 }

/-! ## Hash-chained audit store — `src/bolcd/audit/store.py` -/

/-- The `diff` dict of an audit entry over abstract client payload `β`: the
reserved `_prev` key is tracked separately so its presence and value are
observable. -/
structure AuditDiff (β : Type) where
  data : β
  prev : Option String
deriving DecidableEq

/-- One stored audit entry (`AuditEntry` dataclass / one JSONL line). -/
structure AuditEntry (β : Type) where
  ts : String
  actor : String
  action : String
  diff : AuditDiff β
  hash : String
deriving DecidableEq

/-- The `{ts, actor, action, diff}` payload hashed by `_compute_hash`; the
hash function parameter models SHA-256 over the canonical JSON of exactly
this payload. -/
def auditPayload (e : AuditEntry β) : String × String × String × AuditDiff β :=
  (e.ts, e.actor, e.action, e.diff)

/-- Embedding of `_with_prev_hash_in_diff`: attach the last entry's hash
under `_prev` when that hash is truthy and the key is not already present. -/
def with_prev_hash_in_diff (log : List (AuditEntry β)) (diff : AuditDiff β) : AuditDiff β :=
  match log.getLast? with
  | none => diff
  | some e =>
    if e.hash ≠ "" ∧ diff.prev = none then { diff with prev := some e.hash } else diff

/-- Embedding of `JSONLAuditStore.append`: chain the previous hash into the
diff, hash the payload, append the entry line. -/
def auditAppend (hashFn : String × String × String × AuditDiff β → String)
    (log : List (AuditEntry β)) (ts actor action : String) (diff : AuditDiff β) :
    List (AuditEntry β) :=
  let d := with_prev_hash_in_diff log diff
  log ++ [⟨ts, actor, action, d, hashFn (ts, actor, action, d)⟩]

/-- Result dict of `verify_chain` (the keys the claims read). -/
structure VerifyResult where
  ok : Bool
  entries : ℕ
  reason : Option String
deriving DecidableEq

/-- Loop of `verify_chain`: recompute each hash, check the `_prev` link
against the previous entry's hash when that hash is truthy. -/
def verifyGo (hashFn : String × String × String × AuditDiff β → String) :
    Option String → ℕ → List (AuditEntry β) → VerifyResult
  | _, idx, [] => ⟨true, idx, none⟩
  | prev, idx, e :: rest =>
    if hashFn (auditPayload e) ≠ e.hash then ⟨false, idx + 1, some "hash_mismatch"⟩
    else
      match prev with
      | some p =>
        if p ≠ "" ∧ e.diff.prev ≠ some p then ⟨false, idx + 1, some "prev_link_mismatch"⟩
        else verifyGo hashFn (some e.hash) (idx + 1) rest
      | none => verifyGo hashFn (some e.hash) (idx + 1) rest

/-- Embedding of `JSONLAuditStore.verify_chain` (with the optional tail
limit). -/
def verify_chain (hashFn : String × String × String × AuditDiff β → String)
    (log : List (AuditEntry β)) (limit : Option ℕ) : VerifyResult :=
  let entries := match limit with
    | some l => if 0 < l then log.drop (log.length - l) else log
    | none => log
  verifyGo hashFn none 0 entries

/-- Replay a sequence of `append` calls `(ts, actor, action, data)` against an
empty store, each call's diff carrying no `_prev` key of its own. -/
def auditLogOf (hashFn : String × String × String × AuditDiff β → String)
    (calls : List (String × String × String × β)) : List (AuditEntry β) :=
  calls.foldl (fun lg c => auditAppend hashFn lg c.1 c.2.1 c.2.2.1 ⟨c.2.2.2, none⟩) []

/-- Well-chained log: every entry's hash re-computes, and every entry's
`_prev` field equals the incoming chain hash (the previous entry's hash,
or `prev` for the first entry). -/
def ChainedFrom (hashFn : String × String × String × AuditDiff β → String) :
    Option String → List (AuditEntry β) → Prop
  | _, [] => True
  | prev, e :: rest =>
    hashFn (auditPayload e) = e.hash ∧ e.diff.prev = prev ∧ ChainedFrom hashFn (some e.hash) rest

/-- The hash that chains onto the end of `log` when the chain entered with
`prev`: the last entry's hash, or `prev` when the log is empty. -/
def lastHashFrom (prev : Option String) (log : List (AuditEntry β)) : Option String :=
  match log.getLast? with
  | some g => some g.hash
  | none => prev

/-- The Rule-of-Three scenario event of the spec (section 8, scenario 3):
metrics A and B both equal to 1. -/
def r3Event : Event := fun s => if s = "A" then some 1 else if s = "B" then some 1 else none

/-- Scenario input: 500 identical events with A = B = 1. -/
def r3Events : List Event := List.replicate 500 r3Event

/-- Scenario thresholds: 0.5 for A and B. -/
def r3Thresholds : List (String × ℚ) := [("A", 1 / 2), ("B", 1 / 2)]

/-- The identity function stands in for the abstracted float math-library
functions in concrete scenarios (they are never consulted when k = 0). -/
def qId : ℚ → ℚ := fun x => x

/-- The invariant threaded through the binarization loops: before processing
event `k`, both bitsets only use bits below `k` and are disjoint. -/
def BinInv (k : ℕ) (st : List (ℕ × ℕ)) : Prop :=
  ∀ p ∈ st, p.1 < 2 ^ k ∧ p.2 < 2 ^ k ∧ p.1 &&& p.2 = 0


end BolCD

namespace BolCD

/-! ## Theorems.

Claim theorems are named `claim_C<n>`; their witnesses `claim_C<n>_witness`
and counterexamples `claim_C<n>_counterexample`. -/

theorem binomTailGo_nonneg_le_one (n : ℤ) (p0 q : ℚ) :
    ∀ (steps r : ℕ) (pr cdf : ℚ),
      0 ≤ binomTailGo n p0 q steps r pr cdf ∧ binomTailGo n p0 q steps r pr cdf ≤ 1 := by
  intro steps
  induction steps with
  | zero =>
    intro r pr cdf
    refine ⟨le_max_left 0 _, max_le zero_le_one (min_le_left 1 _)⟩
  | succ k ih =>
    intro r pr cdf
    unfold binomTailGo
    dsimp only
    split
    · exact ⟨le_refl 0, zero_le_one⟩
    · exact ih _ _ _

/-- Claim C10: `one_sided_binomial_pvalue(k, n, p0)` is total and always
returns a value in `[0, 1]`, for every integer `k` and `n`, every rational
`p0` and every model `sq`/`er` of the float math-library functions —
including `n ≤ 0`, `p0 ≤ 0`, `p0 ≥ 1`, `k ≤ 0` and `k > n`. -/
theorem claim_C10 (sq er : ℚ → ℚ) (k n : ℤ) (p0 : ℚ) :
    0 ≤ one_sided_binomial_pvalue sq er k n p0 ∧ one_sided_binomial_pvalue sq er k n p0 ≤ 1 := by
  unfold one_sided_binomial_pvalue
  split
  · exact ⟨zero_le_one, le_refl 1⟩
  split
  · split
    · exact ⟨zero_le_one, le_refl 1⟩
    · exact ⟨le_refl 0, zero_le_one⟩
  split
  · split
    · exact ⟨zero_le_one, le_refl 1⟩
    · exact ⟨le_refl 0, zero_le_one⟩
  split
  · dsimp only
    split
    · split
      · exact ⟨zero_le_one, le_refl 1⟩
      · exact ⟨le_refl 0, zero_le_one⟩
    · exact ⟨le_max_left 0 _, max_le zero_le_one (min_le_left 1 _)⟩
  · exact binomTailGo_nonneg_le_one _ _ _ _ _ _ _

theorem mem_zipWith_exists {α β γ : Type} {f : α → β → γ} :
    ∀ {l1 : List α} {l2 : List β} {c : γ}, c ∈ List.zipWith f l1 l2 →
      ∃ a ∈ l1, ∃ b ∈ l2, c = f a b := by
  intro l1
  induction l1 with
  | nil => intro l2 c hc; simp [List.zipWith] at hc
  | cons a as ih =>
    intro l2 c hc
    cases l2 with
    | nil => simp [List.zipWith] at hc
    | cons b bs =>
      rcases List.mem_cons.mp hc with h | h
      · exact ⟨a, List.mem_cons_self a as, b, List.mem_cons_self b bs, h⟩
      · obtain ⟨x, hx, y, hy, hxy⟩ := ih h
        exact ⟨x, List.mem_cons_of_mem a hx, y, List.mem_cons_of_mem b hy, hxy⟩

theorem and_or_two_pow_eq_zero {a b k : ℕ} (ha : a < 2 ^ k) (hb : b < 2 ^ k)
    (hab : a &&& b = 0) : (a ||| 2 ^ k) &&& b = 0 ∧ a &&& (b ||| 2 ^ k) = 0 := by
  have htest : ∀ i, a.testBit i = false ∨ b.testBit i = false := by
    intro i
    have h := congrArg (fun x => Nat.testBit x i) hab
    simp only [Nat.testBit_and, Nat.zero_testBit] at h
    cases hA : a.testBit i with
    | false => exact Or.inl rfl
    | true => rw [hA] at h; simp at h; exact Or.inr h
  constructor
  · apply Nat.eq_of_testBit_eq
    intro i
    simp only [Nat.testBit_and, Nat.testBit_or, Nat.testBit_two_pow, Nat.zero_testBit]
    by_cases hik : k = i
    · subst hik
      simp [Nat.testBit_lt_two_pow hb]
    · rcases htest i with h | h <;> simp [h, hik]
  · apply Nat.eq_of_testBit_eq
    intro i
    simp only [Nat.testBit_and, Nat.testBit_or, Nat.testBit_two_pow, Nat.zero_testBit]
    by_cases hik : k = i
    · subst hik
      simp [Nat.testBit_lt_two_pow ha]
    · rcases htest i with h | h <;> simp [h, hik]

theorem binarizeCell_cases (delta : ℚ) (bit : ℕ) (vu : ℕ × ℕ) (x : Option ℚ) (a : ℚ) :
    binarizeCell delta bit vu x a = (vu.1 ||| bit, vu.2) ∨
    binarizeCell delta bit vu x a = vu ∨
    binarizeCell delta bit vu x a = (vu.1, vu.2 ||| bit) := by
  cases x with
  | none => right; right; rfl
  | some v =>
    simp only [binarizeCell]
    split
    · left; rfl
    · split
      · right; left; rfl
      · right; right; rfl

theorem binarizeCell_inv {delta : ℚ} {k : ℕ} {vu : ℕ × ℕ} {x : Option ℚ} {a : ℚ}
    (h1 : vu.1 < 2 ^ k) (h2 : vu.2 < 2 ^ k) (h3 : vu.1 &&& vu.2 = 0) :
    (binarizeCell delta (1 <<< k) vu x a).1 < 2 ^ (k + 1) ∧
    (binarizeCell delta (1 <<< k) vu x a).2 < 2 ^ (k + 1) ∧
    (binarizeCell delta (1 <<< k) vu x a).1 &&& (binarizeCell delta (1 <<< k) vu x a).2 = 0 := by
  have hshift : (1 : ℕ) <<< k = 2 ^ k := by rw [Nat.shiftLeft_eq, one_mul]
  have hpow : (2 : ℕ) ^ k < 2 ^ (k + 1) := Nat.pow_lt_pow_succ one_lt_two
  have h1s : vu.1 < 2 ^ (k + 1) := lt_trans h1 hpow
  have h2s : vu.2 < 2 ^ (k + 1) := lt_trans h2 hpow
  have hd := and_or_two_pow_eq_zero h1 h2 h3
  rcases binarizeCell_cases delta (1 <<< k) vu x a with hc | hc | hc <;> rw [hc]
  · rw [hshift]
    exact ⟨Nat.or_lt_two_pow h1s hpow, h2s, hd.1⟩
  · exact ⟨h1s, h2s, h3⟩
  · rw [hshift]
    exact ⟨h1s, Nat.or_lt_two_pow h2s hpow, hd.2⟩

theorem binarizeStep_inv {thresholds : List (String × ℚ)} {delta : ℚ} {k : ℕ} {ev : Event}
    {st : List (ℕ × ℕ)} (h : BinInv k st) :
    BinInv (k + 1) (binarizeStep thresholds delta k ev st) := by
  intro p hp
  obtain ⟨vu, hvu, am, _, hpe⟩ := mem_zipWith_exists hp
  obtain ⟨h1, h2, h3⟩ := h vu hvu
  subst hpe
  exact binarizeCell_inv h1 h2 h3

theorem binarizeGo_inv {thresholds : List (String × ℚ)} {delta : ℚ} :
    ∀ (events : List Event) (st : List (ℕ × ℕ)) (k : ℕ), BinInv k st →
      ∀ p ∈ binarizeGo thresholds delta st k events, p.1 &&& p.2 = 0 := by
  intro events
  induction events with
  | nil =>
    intro st k h p hp
    exact (h p hp).2.2
  | cons ev rest ih =>
    intro st k h p hp
    exact ih _ (k + 1) (binarizeStep_inv h) p hp

/-- Claim C9: for every event sequence, threshold mapping and margin, the
bitsets returned by `binarize_events` satisfy `values_m AND unknown_m = 0`
for every metric position `m` — no bit is both known-true and unknown. -/
theorem claim_C9 (events : List Event) (thresholds : List (String × ℚ)) (delta : ℚ) (m : ℕ) :
    ((binarize_events events thresholds delta).1.getD m 0) &&&
      ((binarize_events events thresholds delta).2.getD m 0) = 0 := by
  unfold binarize_events
  dsimp only
  set pairs := binarizeGo thresholds delta (thresholds.map fun _ => (0, 0)) 0 events with hpairs
  have hinv : ∀ p ∈ pairs, p.1 &&& p.2 = 0 := by
    apply binarizeGo_inv
    intro p hp
    have hp00 : p = (0, 0) := by
      rcases List.mem_map.mp hp with ⟨x, _, hx⟩
      exact hx.symm
    subst hp00
    simp [BinInv]
  by_cases hm : m < pairs.length
  · have hfst : (pairs.map Prod.fst).getD m 0 = (pairs.get ⟨m, hm⟩).1 := by
      rw [List.getD_eq_getElem?_getD, List.getElem?_map, List.getElem?_eq_getElem hm]
      rfl
    have hsnd : (pairs.map Prod.snd).getD m 0 = (pairs.get ⟨m, hm⟩).2 := by
      rw [List.getD_eq_getElem?_getD, List.getElem?_map, List.getElem?_eq_getElem hm]
      rfl
    rw [hfst, hsnd]
    exact hinv _ (pairs.get_mem _ _)
  · have hfst0 : (pairs.map Prod.fst).getD m 0 = 0 := by
      rw [List.getD_eq_getElem?_getD, List.getElem?_map]
      rw [List.getElem?_eq_none (by simpa using Nat.le_of_not_lt hm)]
      rfl
    rw [hfst0]
    simp

theorem should_always_pass_high {pol : Policy} {alert : Alert}
    (hprot : pol.high_severity_protection = true)
    (hsev : alert.severity = "high" ∨ alert.severity = "critical") :
    should_always_pass pol alert = (true, some "high_severity_protection") := by
  unfold should_always_pass
  rw [if_pos]
  exact ⟨hprot, by rcases hsev with h | h <;> simp [h]⟩

theorem _deliver_fst (db : Db) (alert : Alert) (reason : Reason) :
    (_deliver db alert reason).1 = ⟨"deliver", reason⟩ := rfl

theorem _deliver_suppressed (db : Db) (alert : Alert) (reason : Reason) :
    (_deliver db alert reason).2.suppressed = db.suppressed := by
  unfold _deliver
  dsimp only
  split <;> rfl

theorem _deliver_of_existing {db : Db} {alert : Alert} (reason : Reason)
    (h : (db.decisions.find? (fun r => r.alert_id = alert.id)).isSome = true) :
    (_deliver db alert reason).2 = db := by
  unfold _deliver
  obtain ⟨rec, hrec⟩ := Option.isSome_iff_exists.mp h
  rw [hrec]

theorem _suppress_of_existing {now : ℚ} {pol : Policy} {db : Db} {alert : Alert}
    (em : EdgeMeta) (vs conf : ℚ)
    (h : (db.decisions.find? (fun r => r.alert_id = alert.id)).isSome = true) :
    (_suppress now pol db alert em vs conf).2 = db := by
  unfold _suppress
  obtain ⟨rec, hrec⟩ := Option.isSome_iff_exists.mp h
  rw [hrec]

/-- Claim C1: for every alert of severity high or critical while
high-severity protection is enabled, `decide_and_record` delivers with reason
`high_severity_protection` and persists no suppression record, regardless of
the graph context, the store contents or the validation score. -/
theorem claim_C1 (pol : Policy) (now : ℚ) (db : Db) (alert : Alert) (ctx : Ctx)
    (hprot : pol.high_severity_protection = true)
    (hsev : alert.severity = "high" ∨ alert.severity = "critical") :
    (decide_and_record pol now db alert ctx).1.decision = "deliver" ∧
    (decide_and_record pol now db alert ctx).1.reason.why = "high_severity_protection" ∧
    (decide_and_record pol now db alert ctx).2.suppressed = db.suppressed := by
  have hsp := should_always_pass_high hprot hsev
  have hres : decide_and_record pol now db alert ctx =
      _deliver db alert ⟨"high_severity_protection", some pol.policy_version, none, none, none⟩ := by
    unfold decide_and_record
    rw [hsp]
    rfl
  rw [hres, _deliver_fst]
  exact ⟨rfl, rfl, _deliver_suppressed db alert _⟩

/-- Claim C1 witness: a concrete high-severity alert under the default
policy. -/
theorem claim_C1_witness :
    defaultPolicy.high_severity_protection = true ∧
    ((decide_and_record defaultPolicy 0 ⟨[], [], [], [], []⟩
        ⟨"a1", 0, "h", "R1", "high", none⟩ ⟨[], [], []⟩).1.decision = "deliver" ∧
      (decide_and_record defaultPolicy 0 ⟨[], [], [], [], []⟩
        ⟨"a1", 0, "h", "R1", "high", none⟩ ⟨[], [], []⟩).1.reason.why =
          "high_severity_protection" ∧
      (decide_and_record defaultPolicy 0 ⟨[], [], [], [], []⟩
        ⟨"a1", 0, "h", "R1", "high", none⟩ ⟨[], [], []⟩).2.suppressed =
          (⟨[], [], [], [], []⟩ : Db).suppressed) :=
  ⟨rfl, claim_C1 defaultPolicy 0 ⟨[], [], [], [], []⟩ ⟨"a1", 0, "h", "R1", "high", none⟩
    ⟨[], [], []⟩ rfl (Or.inl rfl)⟩

/-- Claim C2 (amended): when a decision record for the alert id already
exists, a second `decide_and_record` call persists no additional decision or
suppression record — but it returns a freshly computed decision, not the
prior record (see the counterexample). -/
theorem claim_C2 (pol : Policy) (now : ℚ) (db : Db) (alert : Alert) (ctx : Ctx)
    (h : (db.decisions.find? (fun r => r.alert_id = alert.id)).isSome = true) :
    (decide_and_record pol now db alert ctx).2.decisions = db.decisions ∧
    (decide_and_record pol now db alert ctx).2.suppressed = db.suppressed := by
  unfold decide_and_record
  dsimp only
  split
  · rw [_deliver_of_existing _ h]
    exact ⟨rfl, rfl⟩
  split
  · rw [_deliver_of_existing _ h]
    exact ⟨rfl, rfl⟩
  split
  · rw [_deliver_of_existing _ h]
    exact ⟨rfl, rfl⟩
  · split
    · have h2 : (((_validate_false_suppression now db alert).2).decisions.find?
          (fun r => r.alert_id = alert.id)).isSome = true := h
      rw [_deliver_of_existing _ h2]
      exact ⟨rfl, rfl⟩
    · have h2 : (((_validate_false_suppression now db alert).2).decisions.find?
          (fun r => r.alert_id = alert.id)).isSome = true := h
      rw [_suppress_of_existing _ _ _ h2]
      exact ⟨rfl, rfl⟩

/-- Claim C2 witness: a store already holding a decision for the alert id. -/
theorem claim_C2_witness :
    (((⟨[], [⟨"a1", "suppress", 1, ⟨"edge", none, none, none, none⟩⟩], [], [], []⟩ :
        Db).decisions.find? (fun r => r.alert_id = "a1")).isSome = true) ∧
    ((decide_and_record defaultPolicy 0
        ⟨[], [⟨"a1", "suppress", 1, ⟨"edge", none, none, none, none⟩⟩], [], [], []⟩
        ⟨"a1", 0, "h", "R1", "high", none⟩ ⟨[], [], []⟩).2.decisions =
      (⟨[], [⟨"a1", "suppress", 1, ⟨"edge", none, none, none, none⟩⟩], [], [], []⟩ :
        Db).decisions ∧
     (decide_and_record defaultPolicy 0
        ⟨[], [⟨"a1", "suppress", 1, ⟨"edge", none, none, none, none⟩⟩], [], [], []⟩
        ⟨"a1", 0, "h", "R1", "high", none⟩ ⟨[], [], []⟩).2.suppressed =
      (⟨[], [⟨"a1", "suppress", 1, ⟨"edge", none, none, none, none⟩⟩], [], [], []⟩ :
        Db).suppressed) :=
  ⟨by decide, claim_C2 defaultPolicy 0
    ⟨[], [⟨"a1", "suppress", 1, ⟨"edge", none, none, none, none⟩⟩], [], [], []⟩
    ⟨"a1", 0, "h", "R1", "high", none⟩ ⟨[], [], []⟩ (by decide)⟩

/-- Claim C2 counterexample: with a persisted `suppress` record for the alert
id, a second submission returns a `deliver` decision — the call is not a
no-op returning the prior record. -/
theorem claim_C2_counterexample :
    (decide_and_record defaultPolicy 0
        ⟨[], [⟨"a1", "suppress", 1, ⟨"edge", none, none, none, none⟩⟩], [], [], []⟩
        ⟨"a1", 0, "h", "R1", "high", none⟩ ⟨[], [], []⟩).1.decision = "deliver" ∧
    ((decide_and_record defaultPolicy 0
        ⟨[], [⟨"a1", "suppress", 1, ⟨"edge", none, none, none, none⟩⟩], [], [], []⟩
        ⟨"a1", 0, "h", "R1", "high", none⟩ ⟨[], [], []⟩).2.decisions.map
          (fun r => r.decision)) = ["suppress"] := by
  decide

theorem findSuppressEdge_nil_edge_meta (pol : Policy) (alert : Alert) :
    ∀ recent, findSuppressEdge pol alert [] recent = none := by
  intro recent
  induction recent with
  | nil => rfl
  | cons h t ih =>
    obtain ⟨⟨ent, rule_a⟩, ts_a⟩ := h
    unfold findSuppressEdge
    split
    · exact ih
    · exact ih

theorem should_always_pass_why_ne_no_graph (pol : Policy) (alert : Alert) :
    (should_always_pass pol alert).2.getD "" ≠ "no_graph" := by
  unfold should_always_pass
  split
  · decide
  split
  · decide
  split
  · split
    · decide
    · decide
  · decide

/-- Claim C3 (amended): when the decision context carries no DAG in-degree
and no edge metadata, every alert is delivered — but with the safety-guard
reason, `root_pass`, or `no_edge`, never with reason `no_graph`, which does
not exist in the code (see the counterexample). -/
theorem claim_C3 (pol : Policy) (now : ℚ) (db : Db) (alert : Alert) (ctx : Ctx)
    (hin : ctx.in_deg = []) (hem : ctx.edge_meta = []) :
    (decide_and_record pol now db alert ctx).1.decision = "deliver" ∧
    (decide_and_record pol now db alert ctx).1.reason.why ≠ "no_graph" := by
  unfold decide_and_record
  rw [hin, hem, findSuppressEdge_nil_edge_meta]
  dsimp only
  split
  · rw [_deliver_fst]
    exact ⟨rfl, should_always_pass_why_ne_no_graph pol alert⟩
  split
  · rw [_deliver_fst]
    exact ⟨rfl, by show ("root_pass" : String) ≠ "no_graph"; decide⟩
  · rw [_deliver_fst]
    exact ⟨rfl, by show ("no_edge" : String) ≠ "no_graph"; decide⟩

/-- Claim C3 witness: a concrete medium-severity alert against the empty
graph context. -/
theorem claim_C3_witness :
    (Ctx.mk [] [] []).in_deg = [] ∧
    ((decide_and_record defaultPolicy 0 ⟨[], [], [], [], []⟩
        ⟨"a1", 0, "h", "R1", "medium", none⟩ ⟨[], [], []⟩).1.decision = "deliver" ∧
     (decide_and_record defaultPolicy 0 ⟨[], [], [], [], []⟩
        ⟨"a1", 0, "h", "R1", "medium", none⟩ ⟨[], [], []⟩).1.reason.why ≠ "no_graph") :=
  ⟨rfl, claim_C3 defaultPolicy 0 ⟨[], [], [], [], []⟩ ⟨"a1", 0, "h", "R1", "medium", none⟩
    ⟨[], [], []⟩ rfl rfl⟩

/-- Claim C3 counterexample: with an empty graph context the recorded reason
is `root_pass`, not the claimed `no_graph`. -/
theorem claim_C3_counterexample :
    (decide_and_record defaultPolicy 0 ⟨[], [], [], [], []⟩
        ⟨"a1", 0, "h", "R1", "medium", none⟩ ⟨[], [], []⟩).1.reason.why = "root_pass" ∧
    "root_pass" ≠ "no_graph" := by
  decide

/-- Claim C4 (amended): for a pending suppression older than twice the TTL
(with a non-negative TTL), the TTL late-replay rule necessarily fires — the
hypothesis of the specified `pending → expired` transition is unsatisfiable —
so the sweep leaves the row `pending` or marks it `late`, never `expired`
(see the counterexample for the concrete divergence). -/
theorem claim_C4 (cfg : ReconCfg) (now : ℚ) (alerts : List Alert) (vlogs : List VLog)
    (sup : SuppressedRec) (acc : List SuppressedRec × List LateReplayRec)
    (httl : 0 ≤ cfg.ttl) (hst : sup.status = "pending")
    (hage : cfg.ttl * 2 < now - sup.inserted_ts) :
    should_late_replay cfg now alerts vlogs sup = (true, "ttl_policy", 7 / 10) ∧
    ((sweepOne cfg now alerts vlogs acc sup).1 = acc.1 ++ [sup] ∨
     (sweepOne cfg now alerts vlogs acc sup).1 = acc.1 ++ [{ sup with status := "late" }]) := by
  have hfire : cfg.ttl ≤ now - sup.inserted_ts := by
    calc cfg.ttl ≤ cfg.ttl * 2 := by linarith
    _ ≤ now - sup.inserted_ts := le_of_lt hage
  have hslr : should_late_replay cfg now alerts vlogs sup = (true, "ttl_policy", 7 / 10) := by
    unfold should_late_replay
    rw [if_pos hfire]
  refine ⟨hslr, ?_⟩
  unfold sweepOne
  rw [if_neg (by simp [hst]), hslr]
  dsimp only
  split
  · next hcon => exact absurd hcon (by decide)
  · split
    · left; rfl
    · split
      · left; rfl
      · right; rfl

/-- Claim C4 witness: a concrete pending suppression aged beyond double the
default TTL. -/
theorem claim_C4_witness :
    (0 : ℚ) ≤ (86400 : ℚ) ∧
    (should_late_replay ⟨86400, 3 / 5⟩ 200000 [] []
        ⟨"x", some "e", 0, "pending", some 0, none, none⟩ = (true, "ttl_policy", 7 / 10) ∧
      ((sweepOne ⟨86400, 3 / 5⟩ 200000 [] [] ([], [])
          ⟨"x", some "e", 0, "pending", some 0, none, none⟩).1 =
        [] ++ [⟨"x", some "e", 0, "pending", some 0, none, none⟩] ∨
       (sweepOne ⟨86400, 3 / 5⟩ 200000 [] [] ([], [])
          ⟨"x", some "e", 0, "pending", some 0, none, none⟩).1 =
        [] ++ [⟨"x", some "e", 0, "late", some 0, none, none⟩])) :=
  ⟨by norm_num, by
    have h := claim_C4 ⟨86400, 3 / 5⟩ 200000 [] []
      ⟨"x", some "e", 0, "pending", some 0, none, none⟩ ([], [])
      (by norm_num) rfl (by norm_num)
    exact h⟩

/-- Claim C4 counterexample: a pending suppression aged beyond double the TTL
ends the sweep in status `late` (via the `ttl_policy` late replay), not in
status `expired` as claimed. -/
theorem claim_C4_counterexample :
    ((run_once ⟨86400, 3 / 5⟩ 200000
        ⟨[⟨"x", 0, "h", "R", "medium", none⟩], [],
         [⟨"x", some "e", 0, "pending", some 0, none, none⟩], [], []⟩).suppressed.map
      (fun s => s.status)) = ["late"] ∧
    ((run_once ⟨86400, 3 / 5⟩ 200000
        ⟨[⟨"x", 0, "h", "R", "medium", none⟩], [],
         [⟨"x", some "e", 0, "pending", some 0, none, none⟩], [], []⟩).late_replays.map
      (fun lr => lr.reason)) = ["ttl_policy"] := by
  with_unfolding_all decide

set_option maxRecDepth 100000

/-- Claim C5: every emitted edge statistic with zero counterexamples has
positive support, `ci95_upper = 3 / n_src1` exactly, no p-value, and the
acceptance predicate of the pipeline accepts it iff `3 / n_src1 ≤ ε`. -/
theorem claim_C5 (sq er : ℚ → ℚ) (names : List String) (values unknowns : List ℕ)
    (epsilon : ℚ) (e : EdgeStats)
    (he : e ∈ compute_all_edges sq er names values unknowns epsilon)
    (hk : e.k_counterex = 0) :
    0 < e.n_src1 ∧ e.ci95_upper = some (3 / (e.n_src1 : ℚ)) ∧ e.p_value = none ∧
      ∀ fdr_q q_val, acceptEdge epsilon fdr_q q_val e =
        decide ((3 : ℚ) / (e.n_src1 : ℚ) ≤ epsilon) := by
  unfold compute_all_edges at he
  obtain ⟨i, _, hmem⟩ := List.mem_flatMap.mp he
  dsimp only at hmem
  split at hmem
  · exact absurd hmem (List.not_mem_nil e)
  · next hsrc =>
    obtain ⟨j, _, hfj⟩ := List.mem_filterMap.mp hmem
    split at hfj
    · exact absurd hfj (by simp)
    · split at hfj
      · have he2 := Option.some.inj hfj
        subst he2
        refine ⟨Nat.pos_of_ne_zero hsrc, ?_, rfl, ?_⟩
        · show rule_of_three_upper _ = _
          unfold rule_of_three_upper
          rw [if_neg hsrc]
        · intro fdr_q q_val
          show acceptEdge epsilon fdr_q q_val ⟨_, _, _, 0, rule_of_three_upper _, none⟩ = _
          unfold acceptEdge
          rw [if_pos rfl]
          unfold rule_of_three_upper
          rw [if_neg hsrc]
      · next hkzero =>
        have he2 := Option.some.inj hfj
        rw [← he2] at hk
        exact absurd hk hkzero

theorem ldiff_zero_right (x : ℕ) : Nat.ldiff x 0 = x :=
  Nat.eq_of_testBit_eq (by intro i; simp [Nat.testBit_ldiff])

theorem ldiff_self_eq_zero (x : ℕ) : Nat.ldiff x x = 0 :=
  Nat.eq_of_testBit_eq (by intro i; simp [Nat.testBit_ldiff])

/-- Claim C5 witness: the spec scenario — 500 events all (A=1, B=1) at
threshold 0.5 yield the edge A→B with n = 500, k = 0, ci95_upper = 3/500 =
0.006 exactly, no p-value, accepted at ε = 0.02. -/
theorem claim_C5_witness :
    ((⟨"A", "B", 500, 0, some (3 / 500), none⟩ : EdgeStats) ∈
      compute_all_edges qId qId ["A", "B"]
        (binarize_events r3Events r3Thresholds 0).1
        (binarize_events r3Events r3Thresholds 0).2 (2 / 100)) ∧
    (⟨"A", "B", 500, 0, some (3 / 500), none⟩ : EdgeStats).ci95_upper =
      some (3 / (((⟨"A", "B", 500, 0, some (3 / 500), none⟩ : EdgeStats).n_src1 : ℕ) : ℚ)) ∧
    (⟨"A", "B", 500, 0, some (3 / 500), none⟩ : EdgeStats).p_value = none ∧
    acceptEdge (2 / 100) (1 / 100) none ⟨"A", "B", 500, 0, some (3 / 500), none⟩ = true ∧
    (3 : ℚ) / 500 = 6 / 1000 := by
  have hpop : popcount (2 ^ 500 - 1) = 500 := by with_unfolding_all decide
  have hbin : binarize_events r3Events r3Thresholds 0 =
      (⟨[2 ^ 500 - 1, 2 ^ 500 - 1], [0, 0]⟩ : List ℕ × List ℕ) := by
    with_unfolding_all decide
  have hmem0 : (⟨"A", "B", 500, 0, some (3 / 500), none⟩ : EdgeStats) ∈
      compute_all_edges qId qId ["A", "B"] [2 ^ 500 - 1, 2 ^ 500 - 1] [0, 0] (2 / 100) := by
    unfold compute_all_edges
    apply List.mem_flatMap.mpr
    refine ⟨0, by decide, ?_⟩
    dsimp only [List.getD_cons_zero, List.getD_cons_succ]
    rw [ldiff_zero_right (2 ^ 500 - 1), hpop]
    rw [if_neg (by decide : ¬(500 = 0))]
    apply List.mem_filterMap.mpr
    refine ⟨1, by decide, ?_⟩
    rw [if_neg (by decide : ¬(0 = 1))]
    dsimp only [List.getD_cons_zero, List.getD_cons_succ]
    unfold compute_counterexamples
    rw [ldiff_self_eq_zero, ldiff_zero_right 0]
    rw [show popcount 0 = 0 from rfl]
    rw [if_pos rfl]
    norm_num [rule_of_three_upper]
  have hmem : (⟨"A", "B", 500, 0, some (3 / 500), none⟩ : EdgeStats) ∈
      compute_all_edges qId qId ["A", "B"]
        (binarize_events r3Events r3Thresholds 0).1
        (binarize_events r3Events r3Thresholds 0).2 (2 / 100) := by
    rw [hbin]
    exact hmem0
  have h := claim_C5 qId qId ["A", "B"]
    (binarize_events r3Events r3Thresholds 0).1
    (binarize_events r3Events r3Thresholds 0).2 (2 / 100) _ hmem rfl
  refine ⟨hmem, h.2.1, h.2.2.1, ?_, ?_⟩
  · rw [h.2.2.2 (1 / 100) none]
    norm_num
  · norm_num

theorem revCumMin_length (l : List ℚ) : (revCumMin l).length = l.length := by
  induction l with
  | nil => rfl
  | cons x xs ih => simp [revCumMin, ih]

theorem sorted_headD_le {l : List ℚ} (h : List.Sorted (· ≤ ·) l) (d : ℚ) :
    ∀ b ∈ l, l.headD d ≤ b := by
  cases l with
  | nil => intro b hb; exact absurd hb (List.not_mem_nil b)
  | cons y ys =>
    intro b hb
    rcases List.mem_cons.mp hb with hb | hb
    · subst hb; exact le_refl _
    · exact (List.sorted_cons.mp h).1 b hb

theorem revCumMin_sorted (l : List ℚ) : List.Sorted (· ≤ ·) (revCumMin l) := by
  induction l with
  | nil => exact List.sorted_nil
  | cons x xs ih =>
    rw [revCumMin]
    rw [List.sorted_cons]
    refine ⟨?_, ih⟩
    intro b hb
    exact le_trans (min_le_right _ _) (sorted_headD_le ih 1 b hb)

theorem revCumMin_le_one (l : List ℚ) : ∀ x ∈ revCumMin l, x ≤ 1 := by
  induction l with
  | nil => intro x hx; exact absurd hx (List.not_mem_nil x)
  | cons y ys ih =>
    intro x hx
    rw [revCumMin] at hx
    rcases List.mem_cons.mp hx with hx | hx
    · subst hx
      cases hys : revCumMin ys with
      | nil => simp [min_le_right y 1]
      | cons z zs =>
        have hz : z ≤ 1 := ih z (by rw [hys]; exact List.mem_cons_self z zs)
        calc min y ((z :: zs).headD 1) ≤ (z :: zs).headD 1 := min_le_right _ _
        _ = z := rfl
        _ ≤ 1 := hz
    · exact ih x hx

theorem revCumMin_nonneg {l : List ℚ} (h : ∀ y ∈ l, 0 ≤ y) : ∀ x ∈ revCumMin l, 0 ≤ x := by
  induction l with
  | nil => intro x hx; exact absurd hx (List.not_mem_nil x)
  | cons y ys ih =>
    have hy : 0 ≤ y := h y (List.mem_cons_self y ys)
    have hys : ∀ y2 ∈ ys, 0 ≤ y2 := fun y2 hy2 => h y2 (List.mem_cons_of_mem y hy2)
    intro x hx
    rw [revCumMin] at hx
    rcases List.mem_cons.mp hx with hx | hx
    · subst hx
      refine le_min hy ?_
      cases h2 : revCumMin ys with
      | nil => simp
      | cons z zs =>
        have : 0 ≤ z := ih hys z (by rw [h2]; exact List.mem_cons_self z zs)
        simpa [h2] using this
    · exact ih hys x hx

theorem bhRawQ_nonneg {m : ℕ} {indexed : List (ℕ × ℚ)}
    (h : ∀ p ∈ indexed, 0 ≤ p.2) : ∀ x ∈ bhRawQ m indexed, 0 ≤ x := by
  intro x hx
  rw [bhRawQ] at hx
  obtain ⟨i, hi, hxi⟩ := List.mem_iff_getElem.mp hx
  rw [List.getElem_mapIdx] at hxi
  subst hxi
  have hi2 : i < indexed.length := by simpa using hi
  have hmem : indexed[i] ∈ indexed := List.getElem_mem hi2
  exact div_nonneg (mul_nonneg (h _ hmem) (by positivity)) (by positivity)

theorem getD_set_ne {l : List ℚ} {j i : ℕ} {v d : ℚ} (h : j ≠ i) :
    (l.set j v).getD i d = l.getD i d := by
  rw [List.getD_eq_getElem?_getD, List.getD_eq_getElem?_getD, List.getElem?_set, if_neg h]

theorem getD_set_self {l : List ℚ} {i : ℕ} {v d : ℚ} (h : i < l.length) :
    (l.set i v).getD i d = v := by
  rw [List.getD_eq_getElem?_getD, List.getElem?_set, if_pos rfl, if_pos h]
  rfl

theorem bhAssign_length : ∀ (pairs : List (ℕ × ℚ)) (out : List ℚ),
    (bhAssign pairs out).length = out.length := by
  intro pairs
  induction pairs with
  | nil => intro out; rfl
  | cons p rest ih =>
    intro out
    obtain ⟨i, q⟩ := p
    rw [bhAssign, ih, List.length_set]

theorem bhAssign_getD_not_mem : ∀ (pairs : List (ℕ × ℚ)) (out : List ℚ) (i : ℕ) (d : ℚ),
    i ∉ pairs.map Prod.fst → (bhAssign pairs out).getD i d = out.getD i d := by
  intro pairs
  induction pairs with
  | nil => intro out i d _; rfl
  | cons p rest ih =>
    intro out i d hni
    obtain ⟨j, q⟩ := p
    rw [List.map_cons, List.mem_cons] at hni
    push_neg at hni
    rw [bhAssign, ih _ _ _ hni.2, getD_set_ne (Ne.symm hni.1)]

theorem bhAssign_getD_mem : ∀ (pairs : List (ℕ × ℚ)) (out : List ℚ) (i : ℕ) (q d : ℚ),
    (pairs.map Prod.fst).Nodup → (i, q) ∈ pairs → i < out.length →
    (bhAssign pairs out).getD i d = min 1 q := by
  intro pairs
  induction pairs with
  | nil => intro out i q d _ hm _; exact absurd hm (List.not_mem_nil _)
  | cons p rest ih =>
    intro out i q d hnd hm hlen
    obtain ⟨j, qj⟩ := p
    rw [List.map_cons, List.nodup_cons] at hnd
    rcases List.mem_cons.mp hm with hm | hm
    · obtain ⟨h1, h2⟩ := Prod.mk.inj hm
      subst h1
      subst h2
      rw [bhAssign, bhAssign_getD_not_mem rest _ _ _ hnd.1, getD_set_self hlen]
    · have hji : j ≠ i := by
        intro hji
        subst hji
        exact hnd.1 (List.mem_map.mpr ⟨(j, q), hm, rfl⟩)
      rw [bhAssign]
      exact ih _ i q d hnd.2 hm (by rw [List.length_set]; exact hlen)

theorem bhAssign_mem_cases : ∀ (pairs : List (ℕ × ℚ)) (out : List ℚ) (x : ℚ),
    x ∈ bhAssign pairs out → x ∈ out ∨ ∃ pr ∈ pairs, x = min 1 pr.2 := by
  intro pairs
  induction pairs with
  | nil => intro out x hx; exact Or.inl hx
  | cons p rest ih =>
    intro out x hx
    obtain ⟨j, qj⟩ := p
    rw [bhAssign] at hx
    rcases ih _ x hx with hx2 | ⟨pr, hpr, hxe⟩
    · rcases List.mem_or_eq_of_mem_set hx2 with hx3 | hx3
      · exact Or.inl hx3
      · exact Or.inr ⟨(j, qj), List.mem_cons_self _ _, hx3⟩
    · exact Or.inr ⟨pr, List.mem_cons_of_mem _ hpr, hxe⟩

theorem bhIndexed_perm (ps : List ℚ) : (bhIndexed ps).Perm ps.enum :=
  List.mergeSort_perm ps.enum _

theorem bhIndexed_fst_perm (ps : List ℚ) :
    ((bhIndexed ps).map Prod.fst).Perm (List.range ps.length) := by
  have h := (bhIndexed_perm ps).map Prod.fst
  rwa [List.enum_map_fst] at h

theorem bhIndexed_fst_nodup (ps : List ℚ) : ((bhIndexed ps).map Prod.fst).Nodup :=
  ((bhIndexed_fst_perm ps).nodup_iff).mpr (List.nodup_range _)

theorem bhIndexed_length (ps : List ℚ) : (bhIndexed ps).length = ps.length := by
  rw [(bhIndexed_perm ps).length_eq, List.enum_length]

theorem bhIndexed_snd_nonneg {ps : List ℚ} (hpos : ∀ p ∈ ps, 0 ≤ p) :
    ∀ p ∈ bhIndexed ps, 0 ≤ p.2 := by
  intro p hp
  obtain ⟨i, x⟩ := p
  have hmem : (i, x) ∈ ps.enum := (bhIndexed_perm ps).mem_iff.mp hp
  obtain ⟨hi, hx⟩ := List.mem_enum hmem
  exact hpos _ (hx ▸ List.getElem_mem hi)

/-- Claim C6: for every list of non-negative p-values, the BH q-values read
in p-value rank order are non-decreasing, and every returned q-value lies in
`[0, 1]`. -/
theorem claim_C6 (ps : List ℚ) (hpos : ∀ p ∈ ps, 0 ≤ p) :
    (∀ q ∈ bh_qvalues ps, 0 ≤ q ∧ q ≤ 1) ∧
    (∀ r s : ℕ, r ≤ s → s < ps.length →
      (bh_qvalues ps).getD (((bhIndexed ps).map Prod.fst).getD r 0) 1 ≤
      (bh_qvalues ps).getD (((bhIndexed ps).map Prod.fst).getD s 0) 1) := by
  by_cases hm0 : ps.length = 0
  · constructor
    · intro q hq
      rw [bh_qvalues, if_pos hm0] at hq
      exact absurd hq (List.not_mem_nil q)
    · intro r s _ hs
      rw [hm0] at hs
      exact absurd hs (Nat.not_lt_zero s)
  · have hbh : bh_qvalues ps =
        bhAssign (((bhIndexed ps).map Prod.fst).zip (revCumMin (bhRawQ ps.length (bhIndexed ps))))
          (List.replicate ps.length 1) := by
      rw [bh_qvalues, if_neg hm0]
    have hqlen : (revCumMin (bhRawQ ps.length (bhIndexed ps))).length = ps.length := by
      rw [revCumMin_length]
      rw [bhRawQ, List.length_mapIdx, bhIndexed_length]
    have hilen : ((bhIndexed ps).map Prod.fst).length = ps.length := by
      rw [List.length_map, bhIndexed_length]
    have hq_nonneg : ∀ x ∈ revCumMin (bhRawQ ps.length (bhIndexed ps)), 0 ≤ x :=
      revCumMin_nonneg (bhRawQ_nonneg (bhIndexed_snd_nonneg hpos))
    constructor
    · intro q hq
      rw [hbh] at hq
      rcases bhAssign_mem_cases _ _ q hq with hq2 | ⟨pr, hpr, hqe⟩
      · rw [List.eq_of_mem_replicate hq2]
        exact ⟨zero_le_one, le_refl 1⟩
      · subst hqe
        have hmem : pr.2 ∈ revCumMin (bhRawQ ps.length (bhIndexed ps)) := by
          obtain ⟨i, x⟩ := pr
          exact (List.of_mem_zip hpr).2
        exact ⟨le_min zero_le_one (hq_nonneg _ hmem), min_le_left _ _⟩
    · intro r s hrs hs
      have hr : r < ps.length := lt_of_le_of_lt hrs hs
      have hgr : ∀ t : ℕ, t < ps.length →
          (bh_qvalues ps).getD (((bhIndexed ps).map Prod.fst).getD t 0) 1 =
            min 1 ((revCumMin (bhRawQ ps.length (bhIndexed ps))).getD t 1) := by
        intro t ht
        have hti : t < ((bhIndexed ps).map Prod.fst).length := by rw [hilen]; exact ht
        have htq : t < (revCumMin (bhRawQ ps.length (bhIndexed ps))).length := by
          rw [hqlen]; exact ht
        have htl : t < (((bhIndexed ps).map Prod.fst).zip
            (revCumMin (bhRawQ ps.length (bhIndexed ps)))).length := by
          rw [List.length_zip, hilen, hqlen]
          exact lt_min ht ht
        have e1 : (((bhIndexed ps).map Prod.fst)).getD t 0 =
            ((bhIndexed ps).map Prod.fst).get ⟨t, hti⟩ := by
          rw [List.getD_eq_getElem?_getD, List.getElem?_eq_getElem hti]
          rfl
        have e2 : (revCumMin (bhRawQ ps.length (bhIndexed ps))).getD t 1 =
            (revCumMin (bhRawQ ps.length (bhIndexed ps))).get ⟨t, htq⟩ := by
          rw [List.getD_eq_getElem?_getD, List.getElem?_eq_getElem htq]
          rfl
        have hpair : (((bhIndexed ps).map Prod.fst).getD t 0,
            (revCumMin (bhRawQ ps.length (bhIndexed ps))).getD t 1) ∈
            ((bhIndexed ps).map Prod.fst).zip
              (revCumMin (bhRawQ ps.length (bhIndexed ps))) := by
          rw [e1, e2]
          have hmz := List.getElem_mem htl
          rw [@List.getElem_zip _ _ ((bhIndexed ps).map Prod.fst)
            (revCumMin (bhRawQ ps.length (bhIndexed ps))) t htl] at hmz
          exact hmz
        have hidx_lt : (((bhIndexed ps).map Prod.fst).getD t 0) < ps.length := by
          have hmem2 : (((bhIndexed ps).map Prod.fst).getD t 0) ∈
              ((bhIndexed ps).map Prod.fst) := by
            rw [e1]
            exact List.get_mem _ _ hti
          rw [← List.mem_range]
          exact (bhIndexed_fst_perm ps).subset hmem2
        rw [hbh]
        have hmfst : ((((bhIndexed ps).map Prod.fst).zip
            (revCumMin (bhRawQ ps.length (bhIndexed ps)))).map Prod.fst) =
            (bhIndexed ps).map Prod.fst :=
          List.map_fst_zip _ _ (by rw [hilen, hqlen])
        exact bhAssign_getD_mem _ _ _ _ 1 (by rw [hmfst]; exact bhIndexed_fst_nodup ps) hpair
          (by rw [List.length_replicate]; exact hidx_lt)
      rw [hgr r hr, hgr s hs]
      refine min_le_min (le_refl 1) ?_
      rcases lt_or_eq_of_le hrs with hlt | heq
      · have hrq : r < (revCumMin (bhRawQ ps.length (bhIndexed ps))).length := by
          rw [hqlen]; exact hr
        have hsq : s < (revCumMin (bhRawQ ps.length (bhIndexed ps))).length := by
          rw [hqlen]; exact hs
        have hsort := revCumMin_sorted (bhRawQ ps.length (bhIndexed ps))
        have hrel := @List.Sorted.rel_get_of_lt _ _ _ hsort ⟨r, hrq⟩ ⟨s, hsq⟩
          (by simpa using hlt)
        have e1 : (revCumMin (bhRawQ ps.length (bhIndexed ps))).getD r 1 =
            (revCumMin (bhRawQ ps.length (bhIndexed ps))).get ⟨r, hrq⟩ := by
          rw [List.getD_eq_getElem?_getD, List.getElem?_eq_getElem hrq]
          rfl
        have e2 : (revCumMin (bhRawQ ps.length (bhIndexed ps))).getD s 1 =
            (revCumMin (bhRawQ ps.length (bhIndexed ps))).get ⟨s, hsq⟩ := by
          rw [List.getD_eq_getElem?_getD, List.getElem?_eq_getElem hsq]
          rfl
        rw [e1, e2]
        exact hrel
      · subst heq
        exact le_refl _

/-- Claim C6 witness: the spec scenario p = [0.001, 0.01, 0.02, 0.2] — a
q-value in range and the rank-order monotonicity between the first and last
rank. -/
theorem claim_C6_witness :
    (0 ≤ (1 : ℚ) / 250 ∧ (1 : ℚ) / 250 ≤ 1) ∧
    (bh_qvalues [1 / 1000, 1 / 100, 1 / 50, 1 / 5]).getD
        (((bhIndexed [1 / 1000, 1 / 100, 1 / 50, 1 / 5]).map Prod.fst).getD 0 0) 1 ≤
      (bh_qvalues [1 / 1000, 1 / 100, 1 / 50, 1 / 5]).getD
        (((bhIndexed [1 / 1000, 1 / 100, 1 / 50, 1 / 5]).map Prod.fst).getD 3 0) 1 := by
  have h := claim_C6 [1 / 1000, 1 / 100, 1 / 50, 1 / 5] (by norm_num)
  refine ⟨?_, h.2 0 3 (by norm_num) (by norm_num)⟩
  have hq : bh_qvalues [1 / 1000, 1 / 100, 1 / 50, 1 / 5] = [1 / 250, 1 / 50, 2 / 75, 1 / 5] := by
    with_unfolding_all decide
  exact h.1 (1 / 250) (by rw [hq]; exact List.mem_cons_self _ _)

theorem subset_stepSet (E : List (String × String)) (S : Finset String) : S ⊆ stepSet E S :=
  Finset.subset_union_left

theorem reachSet_subset_succ (E : List (String × String)) (u : String) (n : ℕ) :
    reachSet E u n ⊆ reachSet E u (n + 1) :=
  subset_stepSet E (reachSet E u n)

theorem mem_reachSet_self (E : List (String × String)) (u : String) :
    ∀ n, u ∈ reachSet E u n := by
  intro n
  induction n with
  | zero => exact Finset.mem_singleton_self u
  | succ k ih => exact reachSet_subset_succ E u k ih

theorem reachSet_sound (E : List (String × String)) (u : String) :
    ∀ n v, v ∈ reachSet E u n → Reach E u v := by
  intro n
  induction n with
  | zero =>
    intro v hv
    rw [reachSet, Finset.mem_singleton] at hv
    subst hv
    exact Relation.ReflTransGen.refl
  | succ k ih =>
    intro v hv
    rw [reachSet, stepSet] at hv
    rcases Finset.mem_union.mp hv with hv | hv
    · exact ih v hv
    · rw [List.mem_toFinset] at hv
      obtain ⟨e, he, hfe⟩ := List.mem_filterMap.mp hv
      by_cases hsrc : e.1 ∈ reachSet E u k
      · rw [if_pos hsrc] at hfe
        have hv2 := Option.some.inj hfe
        subst hv2
        exact Relation.ReflTransGen.tail (ih e.1 hsrc) (by simpa [edgeRel] using he)
      · rw [if_neg hsrc] at hfe
        exact absurd hfe (by simp)

theorem mem_stepSet_of_edge {E : List (String × String)} {S : Finset String} {x y : String}
    (hx : x ∈ S) (hxy : (x, y) ∈ E) : y ∈ stepSet E S := by
  rw [stepSet]
  refine Finset.mem_union.mpr (Or.inr ?_)
  rw [List.mem_toFinset]
  exact List.mem_filterMap.mpr ⟨(x, y), hxy, by rw [if_pos hx]⟩

theorem reachSet_stab (E : List (String × String)) (u : String) {n : ℕ}
    (h : reachSet E u (n + 1) = reachSet E u n) :
    ∀ m, n ≤ m → reachSet E u m = reachSet E u n := by
  intro m hm
  induction m, hm using Nat.le_induction with
  | base => rfl
  | succ k hk ih =>
    have : reachSet E u (k + 1) = stepSet E (reachSet E u k) := rfl
    rw [this, ih]
    exact h

theorem reachSet_subset_universe (E : List (String × String)) (u : String) :
    ∀ n, reachSet E u n ⊆ insert u (E.map Prod.snd).toFinset := by
  intro n
  induction n with
  | zero =>
    intro x hx
    rw [reachSet, Finset.mem_singleton] at hx
    subst hx
    exact Finset.mem_insert_self _ _
  | succ k ih =>
    intro x hx
    rw [reachSet, stepSet] at hx
    rcases Finset.mem_union.mp hx with hx | hx
    · exact ih hx
    · rw [List.mem_toFinset] at hx
      obtain ⟨e, he, hfe⟩ := List.mem_filterMap.mp hx
      by_cases hsrc : e.1 ∈ reachSet E u k
      · rw [if_pos hsrc] at hfe
        have hv2 := Option.some.inj hfe
        subst hv2
        refine Finset.mem_insert_of_mem ?_
        rw [List.mem_toFinset]
        exact List.mem_map.mpr ⟨e, he, rfl⟩
      · rw [if_neg hsrc] at hfe
        exact absurd hfe (by simp)

theorem reachSet_growth (E : List (String × String)) (u : String) :
    ∀ n, reachSet E u (n + 1) = reachSet E u n ∨ n + 2 ≤ (reachSet E u (n + 1)).card := by
  intro n
  induction n with
  | zero =>
    by_cases h : reachSet E u 1 = reachSet E u 0
    · exact Or.inl h
    · refine Or.inr ?_
      have hss : reachSet E u 0 ⊂ reachSet E u 1 :=
        Finset.ssubset_iff_subset_ne.mpr ⟨reachSet_subset_succ E u 0, fun he => h he.symm⟩
      have h0 : (reachSet E u 0).card = 1 := by
        rw [reachSet, Finset.card_singleton]
      have := Finset.card_lt_card hss
      rw [h0] at this
      exact this
  | succ k ih =>
    rcases ih with ih | ih
    · refine Or.inl ?_
      have h1 : reachSet E u (k + 2) = stepSet E (reachSet E u (k + 1)) := rfl
      have h2 : reachSet E u (k + 1) = stepSet E (reachSet E u k) := rfl
      rw [h1, ih, ← h2, ih]
    · by_cases h : reachSet E u (k + 2) = reachSet E u (k + 1)
      · exact Or.inl h
      · refine Or.inr ?_
        have hss : reachSet E u (k + 1) ⊂ reachSet E u (k + 2) :=
          Finset.ssubset_iff_subset_ne.mpr ⟨reachSet_subset_succ E u (k + 1), fun he => h he.symm⟩
        have hlt := Finset.card_lt_card hss
        have hrw : reachSet E u (k + 1 + 1) = reachSet E u (k + 2) := rfl
        rw [hrw]
        omega

theorem reachSet_saturated (E : List (String × String)) (u : String) :
    reachSet E u (E.length + 2) = reachSet E u (E.length + 1) := by
  rcases reachSet_growth E u (E.length + 1) with h | h
  · exact h
  · exfalso
    have hrw : reachSet E u (E.length + 1 + 1) = reachSet E u (E.length + 2) := rfl
    rw [hrw] at h
    have hcard : (reachSet E u (E.length + 2)).card ≤ E.length + 1 := by
      calc (reachSet E u (E.length + 2)).card
        ≤ (insert u (E.map Prod.snd).toFinset).card :=
            Finset.card_le_card (reachSet_subset_universe E u _)
      _ ≤ (E.map Prod.snd).toFinset.card + 1 := Finset.card_insert_le _ _
      _ ≤ (E.map Prod.snd).length + 1 := by
            have := List.toFinset_card_le (E.map Prod.snd)
            omega
      _ = E.length + 1 := by rw [List.length_map]
    omega

theorem reachSet_complete (E : List (String × String)) (u v : String)
    (h : Reach E u v) : v ∈ reachSet E u (E.length + 1) := by
  induction h with
  | refl => exact mem_reachSet_self E u _
  | tail _ hedge ih =>
    have hnext : _ ∈ reachSet E u (E.length + 2) := mem_stepSet_of_edge ih hedge
    rwa [reachSet_saturated E u] at hnext

/-- Correctness of the executable BFS against the reachability relation. -/
theorem bfs_reachable_iff (E : List (String × String)) (u v : String) :
    bfs_reachable E u v = true ↔ Reach E u v := by
  rw [bfs_reachable, decide_eq_true_eq]
  exact ⟨reachSet_sound E u _ v, reachSet_complete E u v⟩

theorem Reach_mono {E F : List (String × String)} (hEF : ∀ e ∈ E, e ∈ F) {a b : String}
    (h : Reach E a b) : Reach F a b :=
  Relation.ReflTransGen.mono (fun x y hxy => hEF (x, y) hxy) h

theorem Reach_erase_of_detour {E : List (String × String)} {e : String × String}
    (hdet : Reach (E.erase e) e.1 e.2) :
    ∀ a b, Reach E a b → Reach (E.erase e) a b := by
  intro a b h
  induction h with
  | refl => exact Relation.ReflTransGen.refl
  | tail _ hedge ih =>
    rename_i x y _
    by_cases hxy : (x, y) = e
    · have h1 : x = e.1 := by rw [← hxy]
      have h2 : y = e.2 := by rw [← hxy]
      subst h1
      subst h2
      exact Relation.ReflTransGen.trans ih hdet
    · exact Relation.ReflTransGen.tail ih
        (by rw [edgeRel, List.mem_erase_of_ne hxy]; exact hedge)

theorem trStep_subset (E : List (String × String)) (e : String × String) :
    ∀ x ∈ trStep E e, x ∈ E := by
  intro x hx
  rw [trStep] at hx
  split at hx
  · exact List.erase_subset _ _ hx
  · exact hx

theorem trStep_nodup {E : List (String × String)} (e : String × String) (h : E.Nodup) :
    (trStep E e).Nodup := by
  rw [trStep]
  split
  · exact h.erase e
  · exact h

theorem trStep_reach_iff (E : List (String × String)) (e : String × String) (a b : String) :
    Reach (trStep E e) a b ↔ Reach E a b := by
  rw [trStep]
  split
  · next hbfs =>
    have hdet : Reach (E.erase e) e.1 e.2 := (bfs_reachable_iff _ _ _).mp hbfs
    exact ⟨Reach_mono (fun x hx => List.erase_subset _ _ hx),
      Reach_erase_of_detour hdet a b⟩
  · exact Iff.rfl

theorem foldl_trStep_subset : ∀ (l E : List (String × String)), ∀ x ∈ l.foldl trStep E, x ∈ E := by
  intro l
  induction l with
  | nil => intro E x hx; exact hx
  | cons e rest ih =>
    intro E x hx
    rw [List.foldl_cons] at hx
    exact trStep_subset E e x (ih _ x hx)

theorem foldl_trStep_nodup : ∀ (l E : List (String × String)), E.Nodup →
    (l.foldl trStep E).Nodup := by
  intro l
  induction l with
  | nil => intro E h; exact h
  | cons e rest ih =>
    intro E h
    rw [List.foldl_cons]
    exact ih _ (trStep_nodup e h)

theorem foldl_trStep_reach_iff : ∀ (l E : List (String × String)) (a b : String),
    Reach (l.foldl trStep E) a b ↔ Reach E a b := by
  intro l
  induction l with
  | nil => intro E a b; exact Iff.rfl
  | cons e rest ih =>
    intro E a b
    rw [List.foldl_cons]
    exact (ih (trStep E e) a b).trans (trStep_reach_iff E e a b)

theorem nodup_erase_subset_erase {R E : List (String × String)} (e : String × String)
    (hRnd : R.Nodup) (hRE : ∀ x ∈ R, x ∈ E) : ∀ x ∈ R.erase e, x ∈ E.erase e := by
  intro x hx
  by_cases hxe : x = e
  · subst hxe
    exact absurd hx (hRnd.not_mem_erase)
  · rw [List.mem_erase_of_ne hxe] at hx
    rw [List.mem_erase_of_ne hxe]
    exact hRE x hx

theorem foldl_trStep_minimal : ∀ (l E : List (String × String)), E.Nodup →
    ∀ e ∈ l.foldl trStep E, e ∈ l → ¬ Reach ((l.foldl trStep E).erase e) e.1 e.2 := by
  intro l
  induction l with
  | nil => intro E _ e _ hel; exact absurd hel (List.not_mem_nil e)
  | cons e0 rest ih =>
    intro E hnd e heR hel
    rw [List.foldl_cons] at heR ⊢
    by_cases hrest : e ∈ rest
    · exact ih (trStep E e0) (trStep_nodup e0 hnd) e heR hrest
    · have hee0 : e = e0 := by
        rcases List.mem_cons.mp hel with h | h
        · exact h
        · exact absurd h hrest
      subst hee0
      by_cases hbfs : bfs_reachable (E.erase e) e.1 e.2 = true
      · exfalso
        have hstep : trStep E e = E.erase e := by rw [trStep, if_pos hbfs]
        have : e ∈ E.erase e := by
          rw [← hstep]
          exact foldl_trStep_subset rest (trStep E e) e heR
        exact hnd.not_mem_erase this
      · have hstep : trStep E e = E := by rw [trStep, if_neg hbfs]
        rw [hstep] at heR ⊢
        intro hreach
        have hsub : ∀ x ∈ (rest.foldl trStep E).erase e, x ∈ E.erase e :=
          nodup_erase_subset_erase e (foldl_trStep_nodup rest E hnd)
            (foldl_trStep_subset rest E)
        have : Reach (E.erase e) e.1 e.2 := Reach_mono hsub hreach
        exact hbfs ((bfs_reachable_iff _ _ _).mpr this)

/-- Claim C7: `transitive_reduction` returns a subset of the input edges with
an unchanged reachability relation and no removable edge — an edge whose
source still reaches its target through the remaining edges.  (Acyclicity of
the input is not needed.) -/
theorem claim_C7 (edges : List (String × String)) :
    (∀ e ∈ transitive_reduction edges, e ∈ edges) ∧
    (∀ a b, Reach (transitive_reduction edges) a b ↔ Reach edges a b) ∧
    (∀ e ∈ transitive_reduction edges, ¬ Reach ((transitive_reduction edges).erase e) e.1 e.2) := by
  rw [transitive_reduction]
  refine ⟨?_, ?_, ?_⟩
  · intro e he
    exact List.mem_dedup.mp (foldl_trStep_subset _ _ e he)
  · intro a b
    refine (foldl_trStep_reach_iff _ _ a b).trans ?_
    constructor
    · exact Reach_mono (fun e he => List.mem_dedup.mp he)
    · exact Reach_mono (fun e he => List.mem_dedup.mpr he)
  · intro e he
    exact foldl_trStep_minimal edges.dedup edges.dedup (List.nodup_dedup edges) e he
      (foldl_trStep_subset _ _ e he)

/-- Claim C7 witness: for the concrete input a→b, b→c, a→c the reduction
keeps a→b, which is then not removable, while a still reaches c. -/
theorem claim_C7_witness :
    (("a", "b") ∈ transitive_reduction [("a", "b"), ("b", "c"), ("a", "c")]) ∧
    ¬ Reach ((transitive_reduction [("a", "b"), ("b", "c"), ("a", "c")]).erase ("a", "b"))
      "a" "b" ∧
    Reach (transitive_reduction [("a", "b"), ("b", "c"), ("a", "c")]) "a" "c" := by
  have hmem : ("a", "b") ∈ transitive_reduction [("a", "b"), ("b", "c"), ("a", "c")] := by
    decide
  have h := claim_C7 [("a", "b"), ("b", "c"), ("a", "c")]
  refine ⟨hmem, h.2.2 ("a", "b") hmem, ?_⟩
  refine (h.2.1 "a" "c").mpr ?_
  exact Relation.ReflTransGen.single (by unfold edgeRel; decide)

theorem chainedFrom_hash_ok {β : Type} (hashFn : String × String × String × AuditDiff β → String) :
    ∀ (log : List (AuditEntry β)) (prev : Option String), ChainedFrom hashFn prev log →
      ∀ e ∈ log, hashFn (auditPayload e) = e.hash := by
  intro log
  induction log with
  | nil => intro prev _ e he; exact absurd he (List.not_mem_nil e)
  | cons x rest ih =>
    intro prev hch e he
    obtain ⟨h1, _, h3⟩ := hch
    rcases List.mem_cons.mp he with he | he
    · subst he; exact h1
    · exact ih (some x.hash) h3 e he

theorem lastHashFrom_cons {β : Type} (prev : Option String) (x : AuditEntry β)
    (xs : List (AuditEntry β)) :
    lastHashFrom prev (x :: xs) = lastHashFrom (some x.hash) xs := by
  cases xs with
  | nil => rfl
  | cons y ys =>
    rw [lastHashFrom, lastHashFrom, List.getLast?_cons_cons]
    cases hg : (y :: ys).getLast? with
    | none => exact absurd (List.getLast?_eq_none_iff.mp hg) (by simp)
    | some g => rfl

theorem chainedFrom_append {β : Type} (hashFn : String × String × String × AuditDiff β → String)
    (e : AuditEntry β) :
    ∀ (log : List (AuditEntry β)) (prev : Option String), ChainedFrom hashFn prev log →
      hashFn (auditPayload e) = e.hash → e.diff.prev = lastHashFrom prev log →
      ChainedFrom hashFn prev (log ++ [e]) := by
  intro log
  induction log with
  | nil =>
    intro prev _ hh hp
    exact ⟨hh, hp, trivial⟩
  | cons x xs ih =>
    intro prev hch hh hp
    obtain ⟨h1, h2, h3⟩ := hch
    refine ⟨h1, h2, ?_⟩
    rw [lastHashFrom_cons] at hp
    exact ih (some x.hash) h3 hh hp

theorem with_prev_eq_lastHash {β : Type} (hashFn : String × String × String × AuditDiff β → String)
    (log : List (AuditEntry β)) (d : β)
    (hch : ChainedFrom hashFn none log) (hne : ∀ p, hashFn p ≠ "") :
    with_prev_hash_in_diff log (⟨d, none⟩ : AuditDiff β) = ⟨d, lastHashFrom none log⟩ := by
  rw [with_prev_hash_in_diff, lastHashFrom]
  cases hl : log.getLast? with
  | none => rfl
  | some g =>
    have hg : g ∈ log := List.mem_of_mem_getLast? hl
    have hgh : hashFn (auditPayload g) = g.hash := chainedFrom_hash_ok hashFn log none hch g hg
    have hgne : g.hash ≠ "" := by rw [← hgh]; exact hne _
    dsimp only
    rw [if_pos ⟨hgne, rfl⟩]

theorem auditAppend_chained {β : Type} (hashFn : String × String × String × AuditDiff β → String)
    (log : List (AuditEntry β)) (ts actor action : String) (d : β)
    (hch : ChainedFrom hashFn none log) (hne : ∀ p, hashFn p ≠ "") :
    ChainedFrom hashFn none (auditAppend hashFn log ts actor action ⟨d, none⟩) := by
  rw [auditAppend, with_prev_eq_lastHash hashFn log d hch hne]
  exact chainedFrom_append hashFn _ log none hch rfl rfl

theorem verifyGo_of_chained {β : Type} (hashFn : String × String × String × AuditDiff β → String) :
    ∀ (log : List (AuditEntry β)) (prev : Option String) (idx : ℕ),
      ChainedFrom hashFn prev log →
      verifyGo hashFn prev idx log = ⟨true, idx + log.length, none⟩ := by
  intro log
  induction log with
  | nil => intro prev idx _; rfl
  | cons e rest ih =>
    intro prev idx hch
    obtain ⟨h1, h2, h3⟩ := hch
    simp only [verifyGo]
    rw [if_neg (fun hc => hc h1)]
    cases prev with
    | none =>
      dsimp only
      rw [ih (some e.hash) (idx + 1) h3]
      rw [List.length_cons]
      exact congrArg (fun n => VerifyResult.mk true n none) (by omega)
    | some p =>
      dsimp only
      rw [if_neg (fun hc => hc.2 h2)]
      rw [ih (some e.hash) (idx + 1) h3]
      rw [List.length_cons]
      exact congrArg (fun n => VerifyResult.mk true n none) (by omega)

theorem auditFold_chained {β : Type} (hashFn : String × String × String × AuditDiff β → String)
    (hne : ∀ p, hashFn p ≠ "") :
    ∀ (calls : List (String × String × String × β)) (log : List (AuditEntry β)),
      ChainedFrom hashFn none log →
      ChainedFrom hashFn none
        (calls.foldl (fun lg c => auditAppend hashFn lg c.1 c.2.1 c.2.2.1 ⟨c.2.2.2, none⟩) log) ∧
      (calls.foldl (fun lg c => auditAppend hashFn lg c.1 c.2.1 c.2.2.1 ⟨c.2.2.2, none⟩)
        log).length = log.length + calls.length := by
  intro calls
  induction calls with
  | nil => intro log hch; exact ⟨hch, rfl⟩
  | cons c rest ih =>
    intro log hch
    rw [List.foldl_cons]
    have hch2 := auditAppend_chained hashFn log c.1 c.2.1 c.2.2.1 c.2.2.2 hch hne
    have hlen : (auditAppend hashFn log c.1 c.2.1 c.2.2.1 ⟨c.2.2.2, none⟩).length =
        log.length + 1 := by
      rw [auditAppend, List.length_append, List.length_cons, List.length_nil]
    obtain ⟨ha, hb⟩ := ih _ hch2
    refine ⟨ha, ?_⟩
    rw [hb, hlen, List.length_cons]
    omega

theorem chainedFrom_prev_zero {β : Type}
    (hashFn : String × String × String × AuditDiff β → String)
    {log : List (AuditEntry β)} {prev : Option String} (hch : ChainedFrom hashFn prev log) :
    ∀ e, log[0]? = some e → e.diff.prev = prev := by
  cases log with
  | nil => intro e he; exact absurd he (by simp)
  | cons x rest =>
    intro e he
    rw [List.getElem?_cons_zero] at he
    have hx := Option.some.inj he
    subst hx
    exact hch.2.1

theorem chainedFrom_consec {β : Type}
    (hashFn : String × String × String × AuditDiff β → String) :
    ∀ (log : List (AuditEntry β)) (prev : Option String) (i : ℕ) (e e2 : AuditEntry β),
      ChainedFrom hashFn prev log → log[i]? = some e → log[i + 1]? = some e2 →
      e2.diff.prev = some e.hash := by
  intro log
  induction log with
  | nil => intro prev i e e2 _ he _; exact absurd he (by simp)
  | cons x rest ih =>
    intro prev i e e2 hch he he2
    cases i with
    | zero =>
      rw [List.getElem?_cons_zero] at he
      have hx := Option.some.inj he
      subst hx
      rw [List.getElem?_cons_succ] at he2
      exact chainedFrom_prev_zero hashFn hch.2.2 e2 he2
    | succ j =>
      rw [List.getElem?_cons_succ] at he he2
      exact ih (some x.hash) j e e2 hch.2.2 he he2

/-- Claim C8 (amended): for every sequence of `append` calls whose diffs do
not already carry a `_prev` key, each stored entry's hash is the model hash
of its `{ts, actor, action, diff}` payload, the diff chains `_prev` to the
previous entry's hash (first entry omits it), and `verify_chain` returns ok
with entry count equal to the number of appends.  The hash function is
abstract (modelling SHA-256 over canonical JSON) and required only to be
non-empty; without the no-`_prev` proviso the claim fails (see the
counterexample). -/
theorem claim_C8 {β : Type} (hashFn : String × String × String × AuditDiff β → String)
    (hne : ∀ p, hashFn p ≠ "") (calls : List (String × String × String × β)) :
    (auditLogOf hashFn calls).length = calls.length ∧
    (∀ i e, (auditLogOf hashFn calls)[i]? = some e →
      e.hash = hashFn (auditPayload e) ∧
      (i = 0 → e.diff.prev = none) ∧
      ∀ e2, (auditLogOf hashFn calls)[i + 1]? = some e2 → e2.diff.prev = some e.hash) ∧
    verify_chain hashFn (auditLogOf hashFn calls) none = ⟨true, calls.length, none⟩ := by
  obtain ⟨hch, hlen⟩ := auditFold_chained hashFn hne calls [] trivial
  rw [List.length_nil, Nat.zero_add] at hlen
  have hlog : auditLogOf hashFn calls =
      calls.foldl (fun lg c => auditAppend hashFn lg c.1 c.2.1 c.2.2.1 ⟨c.2.2.2, none⟩) [] := rfl
  rw [← hlog] at hch hlen
  refine ⟨hlen, ?_, ?_⟩
  · intro i e he
    refine ⟨?_, ?_, ?_⟩
    · have hmem : e ∈ auditLogOf hashFn calls := by
        obtain ⟨hi, hgetElem⟩ : i < (auditLogOf hashFn calls).length ∧
            (auditLogOf hashFn calls)[i]? = some e := by
          refine ⟨?_, he⟩
          by_contra hcon
          rw [List.getElem?_eq_none (Nat.le_of_not_lt hcon)] at he
          exact absurd he (by simp)
        rw [List.getElem?_eq_getElem hi] at hgetElem
        have := Option.some.inj hgetElem
        rw [← this]
        exact List.getElem_mem hi
      exact (chainedFrom_hash_ok hashFn _ none hch e hmem).symm
    · intro hi0
      subst hi0
      exact chainedFrom_prev_zero hashFn hch e he
    · intro e2 he2
      exact chainedFrom_consec hashFn _ none i e e2 hch he he2
  · rw [verify_chain]
    rw [verifyGo_of_chained hashFn _ none 0 hch, Nat.zero_add, hlen]

/-- Claim C8 witness: two appends with fresh diffs verify ok with entry
count 2 under a concrete (constant, non-empty) model hash function. -/
theorem claim_C8_witness :
    ((fun _ => "h") (("t1", "alice", "create", (⟨0, none⟩ : AuditDiff ℕ))) ≠ "") ∧
    verify_chain (fun _ => "h")
      (auditLogOf (fun _ => "h")
        [("t1", "alice", "create", (0 : ℕ)), ("t2", "bob", "update", 1)]) none =
      ⟨true, 2, none⟩ := by
  refine ⟨by decide, ?_⟩
  have h := claim_C8 (fun _ => "h") (fun p => by show ("h" : String) ≠ ""; decide)
    [("t1", "alice", "create", 0), ("t2", "bob", "update", 1)]
  exact h.2.2

/-- Claim C8 counterexample: if the second append's diff already carries a
`_prev` key, the code keeps the caller's value, so the chain breaks and
`verify_chain` reports a `prev_link_mismatch` instead of ok — the claim does
not hold for every append sequence. -/
theorem claim_C8_counterexample :
    verify_chain (fun _ => "h")
      (auditAppend (fun _ => "h")
        (auditAppend (fun _ => "h") ([] : List (AuditEntry ℕ)) "t1" "alice" "create" ⟨0, none⟩)
        "t2" "bob" "update" ⟨1, some "x"⟩) none =
      ⟨false, 2, some "prev_link_mismatch"⟩ := by
  decide

end BolCD